import Mathlib

/-!
Verification of the encircuit Boolean-circuit core: the gate/node data
model, the append-only circuit builder, circuit analysis (validation,
cycle detection, depth, statistics, complexity estimation), input
encryption, and the topological encrypted-evaluation engine, shallowly
embedded from the Rust sources under `encircuit/src/circuit` and
`encircuit/src/keys.rs`.

Machine integers (`usize`) are modelled as `Nat`; Rust `Vec` as `List`;
fallible functions as `Except`; an out-of-bounds index panic is modelled
as a distinguished error value.  Ciphertexts and the FHE backend are
opaque to the core, so they are modelled by a type parameter together
with a record of gate primitives.
-/

namespace Encircuit

/-- Embeds `NodeId(pub(crate) usize)`: unique identifier of a node, equal to the
gate's position in the circuit's gate sequence. -/
abbrev NodeId := Nat

/-- Types of gates supported in Boolean circuits (`Gate` in `builder.rs`). -/
inductive Gate where
  | Input : Gate
  | Constant : Bool → Gate
  | And : NodeId → NodeId → Gate
  | Or : NodeId → NodeId → Gate
  | Xor : NodeId → NodeId → Gate
  | Not : NodeId → Gate
deriving DecidableEq, Repr

/-- The operand indices a gate references (the `NodeId` payloads of the
non-leaf variants; leaf gates reference nothing). -/
def Gate.operands : Gate → List NodeId
  | .Input => []
  | .Constant _ => []
  | .And l r => [l, r]
  | .Or l r => [l, r]
  | .Xor l r => [l, r]
  | .Not x => [x]

/-- Embeds `matches!(gate, Gate::Input)` as used by `count_inputs`. -/
def Gate.isInput : Gate → Bool
  | .Input => true
  | _ => false

/-- An immutable Boolean circuit: the gate sequence plus the designated
output node (`Circuit` in `circuit.rs`). -/
structure Circuit where
  gates : List Gate
  output : NodeId
deriving DecidableEq, Repr

/-- Embeds `Circuit::new`: stores the fields as given, with no checking. -/
def Circuit.new (gates : List Gate) (output : NodeId) : Circuit :=
  ⟨gates, output⟩

/-- Embeds `CircuitBuilder`: the gates appended so far, the (write-only)
node-to-index map, and the next id to hand out. -/
structure CircuitBuilder where
  gates : List Gate
  node_map : List (NodeId × Nat)
  next_id : Nat
deriving Repr

namespace CircuitBuilder

/-- Embeds `CircuitBuilder::new` (`Default`): empty gate list, empty map, id 0. -/
def new : CircuitBuilder := ⟨[], [], 0⟩

/-- Embeds `CircuitBuilder::add_gate`: hand out `next_id`, append the gate at the
end of the sequence, record the pair in the node map. -/
def add_gate (b : CircuitBuilder) (gate : Gate) : NodeId × CircuitBuilder :=
  let node_id := b.next_id
  let gate_index := b.gates.length
  (node_id, ⟨b.gates ++ [gate], (node_id, gate_index) :: b.node_map, b.next_id + 1⟩)

/-- Embeds `CircuitBuilder::input`. -/
def input (b : CircuitBuilder) : NodeId × CircuitBuilder :=
  b.add_gate .Input

/-- Embeds `CircuitBuilder::constant`. -/
def constant (b : CircuitBuilder) (value : Bool) : NodeId × CircuitBuilder :=
  b.add_gate (.Constant value)

/-- Embeds `CircuitBuilder::and`. -/
def and (b : CircuitBuilder) (left right : NodeId) : NodeId × CircuitBuilder :=
  b.add_gate (.And left right)

/-- Embeds `CircuitBuilder::or`. -/
def or (b : CircuitBuilder) (left right : NodeId) : NodeId × CircuitBuilder :=
  b.add_gate (.Or left right)

/-- Embeds `CircuitBuilder::xor`. -/
def xor (b : CircuitBuilder) (left right : NodeId) : NodeId × CircuitBuilder :=
  b.add_gate (.Xor left right)

/-- Embeds `CircuitBuilder::not`. -/
def not (b : CircuitBuilder) (x : NodeId) : NodeId × CircuitBuilder :=
  b.add_gate (.Not x)

/-- Embeds `CircuitBuilder::finish`: consume the builder, no checks performed. -/
def finish (b : CircuitBuilder) (output : NodeId) : Circuit :=
  Circuit.new b.gates output

end CircuitBuilder

/-- One public call on the builder, as recorded in a construction trace. -/
inductive BuildOp where
  | input : BuildOp
  | constant : Bool → BuildOp
  | and : NodeId → NodeId → BuildOp
  | or : NodeId → NodeId → BuildOp
  | xor : NodeId → NodeId → BuildOp
  | not : NodeId → BuildOp
deriving DecidableEq, Repr

/-- The operand `NodeId`s a builder call passes in. -/
def BuildOp.argIds : BuildOp → List NodeId
  | .input => []
  | .constant _ => []
  | .and l r => [l, r]
  | .or l r => [l, r]
  | .xor l r => [l, r]
  | .not x => [x]

/-- The gate a builder call appends. -/
def BuildOp.gate : BuildOp → Gate
  | .input => .Input
  | .constant v => .Constant v
  | .and l r => .And l r
  | .or l r => .Or l r
  | .xor l r => .Xor l r
  | .not x => .Not x

/-- Dispatch one builder call. -/
def CircuitBuilder.applyOp (b : CircuitBuilder) : BuildOp → NodeId × CircuitBuilder
  | .input => b.input
  | .constant v => b.constant v
  | .and l r => b.and l r
  | .or l r => b.or l r
  | .xor l r => b.xor l r
  | .not x => b.not x

/-- Run a trace of builder calls, returning the list of `NodeId`s the
calls produced together with the final builder state. -/
def runOps (b : CircuitBuilder) : List BuildOp → List NodeId × CircuitBuilder
  | [] => ([], b)
  | op :: rest =>
    let r := b.applyOp op
    let rs := runOps r.2 rest
    (r.1 :: rs.1, rs.2)

/-- A trace is valid from next-id `n` when every operand `NodeId` passed to
a two- or one-operand call was returned by a prior call on the same
builder, i.e. lies below the ids handed out so far. -/
def validOpsFrom (n : Nat) : List BuildOp → Bool
  | [] => true
  | op :: rest => op.argIds.all (fun j => decide (j < n)) && validOpsFrom (n + 1) rest

/-- Topological-order check for the tail of a gate sequence starting at
absolute position `i`: every gate's operands are strictly below its index. -/
def topoFromB (i : Nat) : List Gate → Bool
  | [] => true
  | g :: rest => g.operands.all (fun j => decide (j < i)) && topoFromB (i + 1) rest

/-- The topological-order invariant: every gate's operand indices are
strictly less than the gate's own index in the sequence. -/
def topoOkB (gates : List Gate) : Bool := topoFromB 0 gates

/-- Dependency edge of the circuit DAG: gate `i` directly consumes the
result of gate `j`. -/
def gateEdge (gates : List Gate) (i j : Nat) : Prop :=
  ∃ g, gates[i]? = some g ∧ j ∈ g.operands

/-- The count `countInputsL gates` embeds `gates.iter().filter(matches Input).count()`
as used by `Circuit::count_inputs` and `CircuitBuilder::input_count`. -/
def countInputsL (gates : List Gate) : Nat := (gates.filter Gate.isInput).length

/-- Embeds `Circuit::count_inputs`. -/
def Circuit.count_inputs (c : Circuit) : Nat := countInputsL c.gates

/-- Embeds `Circuit::gate_count`. -/
def Circuit.gate_count (c : Circuit) : Nat := c.gates.length

/-- Embeds `Circuit::input_count`. -/
def Circuit.input_count (c : Circuit) : Nat := c.count_inputs

/-- Embeds `CircuitStats` (`circuit.rs`). -/
structure CircuitStats where
  inputs : Nat
  constants : Nat
  and_gates : Nat
  or_gates : Nat
  xor_gates : Nat
  not_gates : Nat
  total_gates : Nat
deriving DecidableEq, Repr

/-- Embeds `CircuitStats::default()`. -/
def CircuitStats.empty : CircuitStats := ⟨0, 0, 0, 0, 0, 0, 0⟩

/-- One iteration of the counting loop in `Circuit::stats`. -/
def statsStep (s : CircuitStats) : Gate → CircuitStats
  | .Input => { s with inputs := s.inputs + 1 }
  | .Constant _ => { s with constants := s.constants + 1 }
  | .And _ _ => { s with and_gates := s.and_gates + 1 }
  | .Or _ _ => { s with or_gates := s.or_gates + 1 }
  | .Xor _ _ => { s with xor_gates := s.xor_gates + 1 }
  | .Not _ => { s with not_gates := s.not_gates + 1 }

/-- Embeds `Circuit::stats`: count gates by kind, then record the total. -/
def Circuit.stats (c : Circuit) : CircuitStats :=
  let s := c.gates.foldl statsStep CircuitStats.empty
  { s with total_gates := c.gates.length }

/-- Result of one `has_cycles_util` call: the Rust function either panics
on an out-of-bounds index access (`panicked n` for index `n`), or returns
a Bool having mutated `visited` and `rec_stack` in place (`returned`).
`outOfFuel` is an artifact of the fuel-based embedding of the recursion,
proved unreachable for the fuel `has_cycles` supplies. -/
inductive UtilRes where
  | outOfFuel : UtilRes
  | panicked : Nat → UtilRes
  | returned : Bool → List Bool → List Bool → UtilRes
deriving DecidableEq, Repr

/-- Embeds `Circuit::has_cycles_util`: check the recursion-stack mark, then the
visited mark, then mark both, recurse into the gate's operands, and unset
the recursion-stack mark before returning `false`.  Index accesses follow
the source order (`rec_stack[node]`, `visited[node]`, `gates[node]`). -/
def hasCyclesUtil (gates : List Gate) :
    Nat → Nat → List Bool → List Bool → UtilRes
  | 0, _, _, _ => .outOfFuel
  | fuel + 1, node, visited, rec_stack =>
    match rec_stack[node]? with
    | none => .panicked node
    | some true => .returned true visited rec_stack
    | some false =>
      match visited[node]? with
      | none => .panicked node
      | some true => .returned false visited rec_stack
      | some false =>
        let visited1 := visited.set node true
        let rec1 := rec_stack.set node true
        match gates[node]? with
        | none => .panicked node
        | some .Input => .returned false visited1 (rec1.set node false)
        | some (.Constant _) => .returned false visited1 (rec1.set node false)
        | some (.Not x) =>
          match hasCyclesUtil gates fuel x visited1 rec1 with
          | .outOfFuel => .outOfFuel
          | .panicked m => .panicked m
          | .returned true v2 r2 => .returned true v2 r2
          | .returned false v2 r2 => .returned false v2 (r2.set node false)
        | some (.And l r) =>
          match hasCyclesUtil gates fuel l visited1 rec1 with
          | .outOfFuel => .outOfFuel
          | .panicked m => .panicked m
          | .returned true v2 r2 => .returned true v2 r2
          | .returned false v2 r2 =>
            match hasCyclesUtil gates fuel r v2 r2 with
            | .outOfFuel => .outOfFuel
            | .panicked m => .panicked m
            | .returned true v3 r3 => .returned true v3 r3
            | .returned false v3 r3 => .returned false v3 (r3.set node false)
        | some (.Or l r) =>
          match hasCyclesUtil gates fuel l visited1 rec1 with
          | .outOfFuel => .outOfFuel
          | .panicked m => .panicked m
          | .returned true v2 r2 => .returned true v2 r2
          | .returned false v2 r2 =>
            match hasCyclesUtil gates fuel r v2 r2 with
            | .outOfFuel => .outOfFuel
            | .panicked m => .panicked m
            | .returned true v3 r3 => .returned true v3 r3
            | .returned false v3 r3 => .returned false v3 (r3.set node false)
        | some (.Xor l r) =>
          match hasCyclesUtil gates fuel l visited1 rec1 with
          | .outOfFuel => .outOfFuel
          | .panicked m => .panicked m
          | .returned true v2 r2 => .returned true v2 r2
          | .returned false v2 r2 =>
            match hasCyclesUtil gates fuel r v2 r2 with
            | .outOfFuel => .outOfFuel
            | .panicked m => .panicked m
            | .returned true v3 r3 => .returned true v3 r3
            | .returned false v3 r3 => .returned false v3 (r3.set node false)

/-- Embeds `Circuit::has_cycles`: DFS from the output node over fresh `visited`
and `rec_stack` arrays sized to the gate count.  The fuel
`gates.length + 1` strictly exceeds the recursion depth the Rust code can
reach (each nested call has a freshly visited ancestor). -/
def Circuit.hasCyclesRes (c : Circuit) : UtilRes :=
  hasCyclesUtil c.gates (c.gates.length + 1) c.output
    (List.replicate c.gates.length false) (List.replicate c.gates.length false)

/-- The Boolean verdict of `has_cycles`.  A panic (or the unreachable fuel
exhaustion) is read as `true` here; `validate` distinguishes those
outcomes explicitly. -/
def Circuit.cycleFound (c : Circuit) : Bool :=
  match c.hasCyclesRes with
  | .returned b _ _ => b
  | _ => true

/-- The errors `Circuit::validate` can surface.  `indexPanic n` models a
Rust index panic at index `n` inside the cycle DFS; `fuelExhausted` is
the unreachable artifact of the fuel-based DFS embedding. -/
inductive ValidateErr where
  | cycle : ValidateErr
  | futureRef : Nat → Nat → ValidateErr
  | outputOutOfBounds : Nat → ValidateErr
  | indexPanic : Nat → ValidateErr
  | fuelExhausted : ValidateErr
deriving DecidableEq, Repr

/-- The operand-reference scan of `validate` over the tail of the gate
list starting at absolute index `i`: bail out on the first gate whose
operand index is not strictly below the gate's own index (left operand
checked before right), reporting the gate and the offending index. -/
def checkRefsFrom (i : Nat) : List Gate → Except ValidateErr Unit
  | [] => .ok ()
  | .And l r :: rest =>
    if l ≥ i then .error (.futureRef i l)
    else if r ≥ i then .error (.futureRef i r)
    else checkRefsFrom (i + 1) rest
  | .Or l r :: rest =>
    if l ≥ i then .error (.futureRef i l)
    else if r ≥ i then .error (.futureRef i r)
    else checkRefsFrom (i + 1) rest
  | .Xor l r :: rest =>
    if l ≥ i then .error (.futureRef i l)
    else if r ≥ i then .error (.futureRef i r)
    else checkRefsFrom (i + 1) rest
  | .Not x :: rest =>
    if x ≥ i then .error (.futureRef i x)
    else checkRefsFrom (i + 1) rest
  | .Input :: rest => checkRefsFrom (i + 1) rest
  | .Constant _ :: rest => checkRefsFrom (i + 1) rest

/-- Embeds `Circuit::validate`: cycle check first (whose DFS may panic), then the
operand-reference scan, then the output bound. -/
def Circuit.validate (c : Circuit) : Except ValidateErr Unit :=
  match c.hasCyclesRes with
  | .outOfFuel => .error .fuelExhausted
  | .panicked n => .error (.indexPanic n)
  | .returned true _ _ => .error .cycle
  | .returned false _ _ =>
    match checkRefsFrom 0 c.gates with
    | .error e => .error e
    | .ok _ =>
      if c.output ≥ c.gates.length then .error (.outputOutOfBounds c.output)
      else .ok ()

/-- One iteration of the `depth` loop: the depth entry for the gate at the
current index, read from the (mutable, zero-initialized) table; `none`
models the Rust index panic on an out-of-bounds operand read. -/
def depthStep (depths : List Nat) : Gate → Option Nat
  | .Input => some 0
  | .Constant _ => some 0
  | .Not x =>
    match depths[x]? with
    | none => none
    | some dx => some (dx + 1)
  | .And l r =>
    match depths[l]?, depths[r]? with
    | some dl, some dr => some (max dl dr + 1)
    | _, _ => none
  | .Or l r =>
    match depths[l]?, depths[r]? with
    | some dl, some dr => some (max dl dr + 1)
    | _, _ => none
  | .Xor l r =>
    match depths[l]?, depths[r]? with
    | some dl, some dr => some (max dl dr + 1)
    | _, _ => none

/-- The `for (i, gate)` loop of `Circuit::depth`, writing each computed
entry into the full-size table at index `i`. -/
def depthLoopFrom : List Gate → List Nat → Nat → Option (List Nat)
  | [], depths, _ => some depths
  | g :: rest, depths, i =>
    match depthStep depths g with
    | none => none
    | some d => depthLoopFrom rest (depths.set i d) (i + 1)

/-- Embeds `Circuit::depth`: fill the zero-initialized table in one pass, then
read the entry at the output index; `none` models an index panic. -/
def Circuit.depth (c : Circuit) : Option Nat :=
  match depthLoopFrom c.gates (List.replicate c.gates.length 0) 0 with
  | none => none
  | some depths => depths[c.output]?

/-- The depth recurrence as the spec states it: leaf gates have depth 0, a
one-operand gate `1 + depth(operand)`, a two-operand gate
`1 + max(depth(left), depth(right))`.  Operands violating the topological
order contribute 0 (never exercised when the invariant holds). -/
def depthRec (gates : List Gate) : Nat → Nat
  | i =>
    match gates[i]? with
    | some (.Not x) => if h : x < i then depthRec gates x + 1 else 0
    | some (.And l r) =>
      if h : l < i ∧ r < i then max (depthRec gates l) (depthRec gates r) + 1 else 0
    | some (.Or l r) =>
      if h : l < i ∧ r < i then max (depthRec gates l) (depthRec gates r) + 1 else 0
    | some (.Xor l r) =>
      if h : l < i ∧ r < i then max (depthRec gates l) (depthRec gates r) + 1 else 0
    | _ => 0
termination_by i => i
decreasing_by
  all_goals first
    | exact h
    | exact h.1
    | exact h.2

/-- Embeds `AND_OR_XOR_TIME_MS = 0.1` (the `f64` constant modelled as an exact
rational). -/
def AND_OR_XOR_TIME_MS : ℚ := 1 / 10

/-- Embeds `NOT_TIME_MS = 0.05`. -/
def NOT_TIME_MS : ℚ := 1 / 20

/-- Embeds `Circuit::estimate_evaluation_time` over exact rationals: the maximum
of the sequential critical-path time and the summed per-gate time. -/
def estimate_evaluation_time (stats : CircuitStats) (depth : Nat) : ℚ :=
  let sequential_time := (depth : ℚ) * AND_OR_XOR_TIME_MS
  let total_gate_time :=
    ((stats.and_gates + stats.or_gates + stats.xor_gates : Nat) : ℚ) * AND_OR_XOR_TIME_MS
      + (stats.not_gates : ℚ) * NOT_TIME_MS
  max sequential_time total_gate_time

/-- Embeds `CircuitComplexity` (`circuit.rs`); the estimated time is an exact
rational standing for the `f64` field. -/
structure CircuitComplexity where
  total_gates : Nat
  depth : Nat
  boolean_gates : Nat
  estimated_evaluation_time_ms : ℚ
deriving DecidableEq, Repr

/-- Embeds `Circuit::complexity_estimate`; `none` propagates a `depth()` panic. -/
def Circuit.complexity_estimate (c : Circuit) : Option CircuitComplexity :=
  match c.depth with
  | none => none
  | some d =>
    let stats := c.stats
    some ⟨stats.total_gates, d,
      stats.and_gates + stats.or_gates + stats.xor_gates + stats.not_gates,
      estimate_evaluation_time stats d⟩

/-- Embeds `CircuitComplexity::complexity_rating`: the banded match on
`total_gates` (`0..=10`, `11..=100`, `101..=1000`, `1001..=10000`, rest). -/
def CircuitComplexity.complexity_rating (cc : CircuitComplexity) : String :=
  if cc.total_gates ≤ 10 then "Trivial"
  else if cc.total_gates ≤ 100 then "Simple"
  else if cc.total_gates ≤ 1000 then "Moderate"
  else if cc.total_gates ≤ 10000 then "Complex"
  else "Very Complex"

/-- Embeds `CircuitComplexity::is_realtime_suitable`. -/
def CircuitComplexity.is_realtime_suitable (cc : CircuitComplexity) (threshold_ms : ℚ) : Bool :=
  cc.estimated_evaluation_time_ms ≤ threshold_ms

/-- The homomorphic gate primitives of a TFHE server key, opaque to the
core (`server_key.and/or/xor/not` as wrapped by the `homomorphic_*`
helpers in `encrypted.rs`); `σ` stands for `BoolCt`. -/
structure GateOps (σ : Type) where
  and : σ → σ → σ
  or : σ → σ → σ
  xor : σ → σ → σ
  not : σ → σ

/-- Embeds `EncryptedCircuit` (`encrypted.rs`): the circuit, one ciphertext per
input gate in order, and the two pre-encrypted Boolean constants. -/
structure EncryptedCircuit (σ : Type) where
  circuit : Circuit
  encrypted_inputs : List σ
  encrypted_false : σ
  encrypted_true : σ

/-- Embeds `EncryptedCircuit::new`. -/
def EncryptedCircuit.new {σ : Type} (circuit : Circuit) (encrypted_inputs : List σ)
    (encrypted_false encrypted_true : σ) : EncryptedCircuit σ :=
  ⟨circuit, encrypted_inputs, encrypted_false, encrypted_true⟩

/-- Embeds `EncryptedCircuit::input_count`. -/
def EncryptedCircuit.input_count {σ : Type} (ec : EncryptedCircuit σ) : Nat :=
  ec.encrypted_inputs.length

/-- Errors of `evaluate_with_tfhe_key`: the `ok_or_else` messages for a
not-yet-computed results-table entry, plus `indexPanic n` for a Rust
index panic at index `n` (out-of-bounds operand, input, or output). -/
inductive EvalErr where
  | leftNotComputed : Nat → EvalErr
  | rightNotComputed : Nat → EvalErr
  | operandNotComputed : Nat → EvalErr
  | outputNotComputed : Nat → EvalErr
  | indexPanic : Nat → EvalErr
deriving DecidableEq, Repr

/-- Embeds `gate_results[n].as_ref().ok_or_else(...)`: an out-of-range index is a
panic; an in-range `None` entry produces the given error; otherwise the
stored ciphertext. -/
def lookupComputed {σ : Type} (results : List (Option σ)) (n : Nat)
    (mk : Nat → EvalErr) : Except EvalErr σ :=
  match results[n]? with
  | none => .error (.indexPanic n)
  | some none => .error (mk n)
  | some (some v) => .ok v

/-- The evaluation walk of `evaluate_with_tfhe_key` over the remaining
gates: `gate_index` is the enumerate counter, `input_index` the next
unconsumed encrypted input, `results` the full-size results table. -/
def evalFrom {σ : Type} (ops : GateOps σ) (ec : EncryptedCircuit σ) :
    List Gate → List (Option σ) → Nat → Nat → Except EvalErr (List (Option σ))
  | [], results, _, _ => .ok results
  | g :: rest, results, gate_index, input_index =>
    match g with
    | .Input =>
      match ec.encrypted_inputs[input_index]? with
      | none => .error (.indexPanic input_index)
      | some ct =>
        evalFrom ops ec rest (results.set gate_index (some ct))
          (gate_index + 1) (input_index + 1)
    | .Constant v =>
      let ct := if v then ec.encrypted_true else ec.encrypted_false
      evalFrom ops ec rest (results.set gate_index (some ct)) (gate_index + 1) input_index
    | .And l r => do
      let lv ← lookupComputed results l .leftNotComputed
      let rv ← lookupComputed results r .rightNotComputed
      evalFrom ops ec rest (results.set gate_index (some (ops.and lv rv)))
        (gate_index + 1) input_index
    | .Or l r => do
      let lv ← lookupComputed results l .leftNotComputed
      let rv ← lookupComputed results r .rightNotComputed
      evalFrom ops ec rest (results.set gate_index (some (ops.or lv rv)))
        (gate_index + 1) input_index
    | .Xor l r => do
      let lv ← lookupComputed results l .leftNotComputed
      let rv ← lookupComputed results r .rightNotComputed
      evalFrom ops ec rest (results.set gate_index (some (ops.xor lv rv)))
        (gate_index + 1) input_index
    | .Not x => do
      let xv ← lookupComputed results x .operandNotComputed
      evalFrom ops ec rest (results.set gate_index (some (ops.not xv)))
        (gate_index + 1) input_index

/-- Embeds `EncryptedCircuit::evaluate_with_tfhe_key`: walk the gate sequence once
over a `None`-initialized results table, then return the table entry at
the designated output index wrapped in a singleton vector. -/
def evaluate_with_tfhe_key {σ : Type} (ops : GateOps σ) (ec : EncryptedCircuit σ) :
    Except EvalErr (List σ) :=
  match evalFrom ops ec ec.circuit.gates
      (List.replicate ec.circuit.gates.length none) 0 0 with
  | .error e => .error e
  | .ok gate_results =>
    match gate_results[ec.circuit.output]? with
    | none => .error (.indexPanic ec.circuit.output)
    | some none => .error (.outputNotComputed ec.circuit.output)
    | some (some v) => .ok [v]

/-- Reference results table for the evaluation walk, following the spec's
description: gate values accumulate in `acc` in gate order, an `Input`
gate takes the next unconsumed bound input (`k` inputs consumed so far),
a `Constant` gate the pre-bound constant, and a Boolean gate applies the
backend primitive to the operand entries.  `d` is a default value never
read when the topological invariant holds and the input count matches. -/
def specTableAux {σ : Type} (ops : GateOps σ) (ec : EncryptedCircuit σ) (d : σ) :
    List Gate → List σ → Nat → List σ
  | [], acc, _ => acc
  | g :: rest, acc, k =>
    match g with
    | .Input =>
      specTableAux ops ec d rest (acc ++ [ec.encrypted_inputs.getD k d]) (k + 1)
    | .Constant v =>
      specTableAux ops ec d rest
        (acc ++ [if v then ec.encrypted_true else ec.encrypted_false]) k
    | .And l r =>
      specTableAux ops ec d rest (acc ++ [ops.and (acc.getD l d) (acc.getD r d)]) k
    | .Or l r =>
      specTableAux ops ec d rest (acc ++ [ops.or (acc.getD l d) (acc.getD r d)]) k
    | .Xor l r =>
      specTableAux ops ec d rest (acc ++ [ops.xor (acc.getD l d) (acc.getD r d)]) k
    | .Not x =>
      specTableAux ops ec d rest (acc ++ [ops.not (acc.getD x d)]) k

/-- The full reference results table of an encrypted circuit. -/
def specTable {σ : Type} (ops : GateOps σ) (ec : EncryptedCircuit σ) (d : σ) : List σ :=
  specTableAux ops ec d ec.circuit.gates [] 0

/-- Errors of `Circuit::encrypt_inputs`: the count-mismatch bailout naming
expected and actual counts, or a failure of the backend encryption. -/
inductive EncryptErr (ε : Type) where
  | inputCountMismatch : Nat → Nat → EncryptErr ε
  | encryptionFailed : ε → EncryptErr ε
deriving DecidableEq, Repr

/-- The `for &input in inputs` loop of `encrypt_inputs_sequential`:
encrypt each plaintext in order, failing fast on the first error. -/
def encryptList {σ ε : Type} (enc : Bool → Except ε σ) : List Bool → Except ε (List σ)
  | [] => .ok []
  | b :: rest => do
    let ct ← enc b
    let cts ← encryptList enc rest
    .ok (ct :: cts)

/-- Embeds `Circuit::encrypt_inputs_sequential` (the `parallel` variant is the
same order-preserving map): encrypt each input, then the two Boolean
constants, and bind the `EncryptedCircuit`.  `enc` stands for
`Encryptable::encrypt` applied with the client key. -/
def encrypt_inputs_sequential {σ ε : Type} (enc : Bool → Except ε σ) (c : Circuit)
    (inputs : List Bool) : Except ε (EncryptedCircuit σ) := do
  let encrypted_inputs ← encryptList enc inputs
  let encrypted_false ← enc false
  let encrypted_true ← enc true
  .ok (EncryptedCircuit.new c encrypted_inputs encrypted_false encrypted_true)

/-- Embeds `Circuit::encrypt_inputs`: bail out with the count mismatch before any
encryption call; otherwise run the encryption path. -/
def Circuit.encrypt_inputs {σ ε : Type} (c : Circuit) (enc : Bool → Except ε σ)
    (inputs : List Bool) : Except (EncryptErr ε) (EncryptedCircuit σ) :=
  let input_count := c.count_inputs
  if inputs.length ≠ input_count then
    .error (.inputCountMismatch input_count inputs.length)
  else
    match encrypt_inputs_sequential enc c inputs with
    | .error e => .error (.encryptionFailed e)
    | .ok ec => .ok ec

/-- Embeds `ServerKeyBytes` (`keys.rs`): a wrapper holding a TFHE server key
(`κ` stands for `tfhe::boolean::ServerKey`). -/
structure ServerKeyBytes (κ : Type) where
  key : κ

/-- Embeds `ServerKeyBytes::tfhe_key`: unconditionally `Ok(&self.key)`. -/
def ServerKeyBytes.tfhe_key {κ : Type} (sk : ServerKeyBytes κ) : Except String κ :=
  .ok sk.key

/-- Errors of `EncryptedCircuit::try_evaluate`: the "Invalid server key"
wrapping of a `tfhe_key` failure, or the "Circuit evaluation failed"
wrapping of an evaluation error. -/
inductive TryEvalErr where
  | invalidServerKey : String → TryEvalErr
  | evaluationFailed : EvalErr → TryEvalErr
deriving DecidableEq, Repr

/-- Embeds `EncryptedCircuit::try_evaluate`: obtain the TFHE server key (mapping a
failure to the invalid-server-key error), then evaluate (mapping a
failure to the evaluation-failed error).  `mkOps` stands for the gate
primitives the obtained TFHE key provides. -/
def try_evaluate {σ κ : Type} (mkOps : κ → GateOps σ) (ec : EncryptedCircuit σ)
    (server_key : ServerKeyBytes κ) : Except TryEvalErr (List σ) :=
  match server_key.tfhe_key with
  | .error e => .error (.invalidServerKey e)
  | .ok k =>
    match evaluate_with_tfhe_key (mkOps k) ec with
    | .error e => .error (.evaluationFailed e)
    | .ok out => .ok out

/- ### Builder lemmas -/

theorem applyOp_eq (b : CircuitBuilder) (op : BuildOp) :
    b.applyOp op =
      (b.next_id, ⟨b.gates ++ [op.gate], (b.next_id, b.gates.length) :: b.node_map,
        b.next_id + 1⟩) := by
  cases op <;> rfl

theorem topoFromB_append (g : Gate) :
    ∀ (gs : List Gate) (i : Nat), topoFromB i gs = true →
      g.operands.all (fun j => decide (j < i + gs.length)) = true →
      topoFromB i (gs ++ [g]) = true := by
  intro gs
  induction gs with
  | nil =>
    intro i _ hg
    simpa [topoFromB] using hg
  | cons g' gs' ih =>
    intro i h hg
    simp only [topoFromB, Bool.and_eq_true] at h
    simp only [List.cons_append, topoFromB, Bool.and_eq_true]
    refine ⟨h.1, ih (i + 1) h.2 ?_⟩
    have : i + 1 + gs'.length = i + (g' :: gs').length := by
      simp only [List.length_cons]
      omega
    rw [this]
    exact hg

theorem runOps_topo (ops : List BuildOp) :
    ∀ b : CircuitBuilder, b.next_id = b.gates.length →
      topoOkB b.gates = true → validOpsFrom b.next_id ops = true →
      topoOkB (runOps b ops).2.gates = true := by
  induction ops with
  | nil => intro b _ htopo _; simpa [runOps] using htopo
  | cons op rest ih =>
    intro b hn htopo hvalid
    simp only [validOpsFrom, Bool.and_eq_true] at hvalid
    simp only [runOps, applyOp_eq]
    apply ih
    · simp [hn]
    · apply topoFromB_append
      · exact htopo
      · have hops : op.gate.operands = op.argIds := by cases op <;> rfl
        rw [hops]
        simpa [hn] using hvalid.1
    · simpa [hn] using hvalid.2

theorem topoFromB_lt {gates : List Gate} {n i : Nat} {g : Gate} {j : Nat} :
    topoFromB n gates = true → gates[i]? = some g → j ∈ g.operands → j < n + i := by
  induction gates generalizing n i with
  | nil => intro _ h; simp at h
  | cons g' rest ih =>
    intro htopo hget hj
    simp only [topoFromB, Bool.and_eq_true] at htopo
    cases i with
    | zero =>
      simp only [List.getElem?_cons_zero, Option.some.injEq] at hget
      subst hget
      have := List.all_eq_true.mp htopo.1 j hj
      simpa using this
    | succ k =>
      simp only [List.getElem?_cons_succ] at hget
      have := ih htopo.2 hget hj
      omega

theorem topoOkB_edge_lt {gates : List Gate} {i j : Nat}
    (h : topoOkB gates = true) (he : gateEdge gates i j) : j < i := by
  obtain ⟨g, hget, hj⟩ := he
  simpa using topoFromB_lt h hget hj

/-- C1: for every circuit produced via the builder — operand `NodeId`s
passed to `and`/`or`/`xor`/`not` originating only from prior calls on the
same builder — every non-leaf gate's operand indices are strictly less
than the gate's own index in the gate sequence, and consequently the
dependency relation admits no cycle (and no forward reference). -/
theorem builder_topological_invariant (ops : List BuildOp) (out : NodeId)
    (hvalid : validOpsFrom 0 ops = true) :
    topoOkB ((runOps CircuitBuilder.new ops).2.finish out).gates = true ∧
    ∀ i, ¬ Relation.TransGen
      (gateEdge ((runOps CircuitBuilder.new ops).2.finish out).gates) i i := by
  have htopo : topoOkB ((runOps CircuitBuilder.new ops).2.finish out).gates = true := by
    have := runOps_topo ops CircuitBuilder.new rfl rfl hvalid
    simpa [CircuitBuilder.finish, Circuit.new] using this
  refine ⟨htopo, ?_⟩
  intro i hcyc
  have hlt : ∀ a b : Nat,
      Relation.TransGen (gateEdge ((runOps CircuitBuilder.new ops).2.finish out).gates) a b →
      b < a := by
    intro a b h
    induction h with
    | single he => exact topoOkB_edge_lt htopo he
    | tail _ he ih => exact lt_trans (topoOkB_edge_lt htopo he) ih
  exact lt_irrefl i (hlt i i hcyc)

/-- Witness for C1 at the concrete trace `x := input; y := input; and x y`. -/
theorem builder_topological_invariant_witness :
    validOpsFrom 0 [BuildOp.input, BuildOp.input, BuildOp.and 0 1] = true ∧
    topoOkB ((runOps CircuitBuilder.new
      [BuildOp.input, BuildOp.input, BuildOp.and 0 1]).2.finish 2).gates = true :=
  ⟨by decide,
   (builder_topological_invariant [BuildOp.input, BuildOp.input, BuildOp.and 0 1] 2
     (by decide)).1⟩

/- ### Output-bound behaviour of `finish` (C4) -/

theorem runOps_next_id (ops : List BuildOp) :
    ∀ b : CircuitBuilder, (runOps b ops).2.next_id = b.next_id + ops.length := by
  induction ops with
  | nil => intro b; simp [runOps]
  | cons op rest ih =>
    intro b
    simp only [runOps, applyOp_eq, ih, List.length_cons]
    omega

theorem runOps_gates_length (ops : List BuildOp) :
    ∀ b : CircuitBuilder, (runOps b ops).2.gates.length = b.gates.length + ops.length := by
  induction ops with
  | nil => intro b; simp [runOps]
  | cons op rest ih =>
    intro b
    simp only [runOps, applyOp_eq, ih, List.length_append, List.length_cons,
      List.length_nil]
    omega

theorem runOps_ids_lt (ops : List BuildOp) :
    ∀ (b : CircuitBuilder) (i : Nat), i ∈ (runOps b ops).1 → i < b.next_id + ops.length := by
  induction ops with
  | nil => intro b i h; simp [runOps] at h
  | cons op rest ih =>
    intro b i h
    simp only [runOps, applyOp_eq, List.mem_cons] at h
    rcases h with h | h
    · subst h; simp only [List.length_cons]; omega
    · have := ih _ i h
      simp only [applyOp_eq] at this
      simp only [List.length_cons]
      omega

/-- C4 counterexample: `NodeId` is freely copyable between builders, so the
output handed to `finish` can come from a different (larger) builder; the
resulting `Circuit` violates the output-bound invariant.  Here id 2 is
produced by the third call on one builder and passed to `finish` on a
builder holding a single gate. -/
theorem finish_foreign_node_output_out_of_bounds :
    2 ∈ (runOps CircuitBuilder.new [BuildOp.input, BuildOp.input, BuildOp.input]).1 ∧
    ¬ ((runOps CircuitBuilder.new [BuildOp.input]).2.finish 2).output <
        ((runOps CircuitBuilder.new [BuildOp.input]).2.finish 2).gate_count := by
  decide

/-- C4 (amended): every circuit produced by `finish` whose output `NodeId`
originates from a prior call on the same builder has its output index
strictly below its gate count. -/
theorem finish_same_builder_output_in_bounds (ops : List BuildOp) (out : NodeId)
    (hout : out ∈ (runOps CircuitBuilder.new ops).1) :
    ((runOps CircuitBuilder.new ops).2.finish out).output <
      ((runOps CircuitBuilder.new ops).2.finish out).gate_count := by
  have h1 := runOps_ids_lt ops CircuitBuilder.new out hout
  have h2 := runOps_gates_length ops CircuitBuilder.new
  simp only [CircuitBuilder.finish, Circuit.new, Circuit.gate_count]
  rw [h2]
  simpa [CircuitBuilder.new] using h1

/-- Witness for the amended C4 at the one-gate trace. -/
theorem finish_same_builder_output_in_bounds_witness :
    0 ∈ (runOps CircuitBuilder.new [BuildOp.input]).1 ∧
    ((runOps CircuitBuilder.new [BuildOp.input]).2.finish 0).output <
      ((runOps CircuitBuilder.new [BuildOp.input]).2.finish 0).gate_count :=
  ⟨by decide, finish_same_builder_output_in_bounds [BuildOp.input] 0 (by decide)⟩

/- ### Input-count check of `encrypt_inputs` (C6) -/

/-- C6: a plaintext slice whose length differs from the circuit's
input-gate count makes `encrypt_inputs` return the count-mismatch error
naming the expected and actual counts, for every backend encryption
function — so no encryption call can influence or precede the check —
while matching lengths never produce that error. -/
theorem encrypt_inputs_count_check {σ ε : Type} (c : Circuit) (inputs : List Bool) :
    (∀ enc : Bool → Except ε σ, inputs.length ≠ c.count_inputs →
      c.encrypt_inputs enc inputs =
        .error (.inputCountMismatch c.count_inputs inputs.length)) ∧
    (∀ (enc : Bool → Except ε σ) (e a : Nat), inputs.length = c.count_inputs →
      c.encrypt_inputs enc inputs ≠ .error (.inputCountMismatch e a)) := by
  constructor
  · intro enc hne
    simp [Circuit.encrypt_inputs, hne]
  · intro enc e a heq
    simp only [Circuit.encrypt_inputs]
    rw [if_neg (not_not_intro heq)]
    cases encrypt_inputs_sequential enc c inputs <;> simp

/-- Witness for C6: a circuit with no input gates rejects a length-1 slice
with the mismatch error, and accepts a length-0 slice without it. -/
theorem encrypt_inputs_count_check_witness :
    Circuit.encrypt_inputs (σ := Bool) (ε := Unit) ⟨[Gate.Constant true], 0⟩
      (fun b => .ok b) [true] = .error (.inputCountMismatch 0 1) ∧
    Circuit.encrypt_inputs (σ := Bool) (ε := Unit) ⟨[Gate.Constant true], 0⟩
      (fun b => .ok b) [] ≠ .error (.inputCountMismatch 0 0) :=
  ⟨(encrypt_inputs_count_check ⟨[Gate.Constant true], 0⟩ [true]).1 _ (by decide),
   (encrypt_inputs_count_check ⟨[Gate.Constant true], 0⟩ []).2 _ 0 0 (by decide)⟩

/- ### Complexity rating bands (C7) -/

/-- C7: the complexity rating is a function of the total gate count alone,
banded as 0–10 Trivial, 11–100 Simple, 101–1000 Moderate, 1001–10000
Complex, above 10000 Very Complex; and the total-gates field of a
computed complexity estimate is the circuit's gate count. -/
theorem complexity_rating_bands :
    (∀ cc : CircuitComplexity, cc.total_gates ≤ 10 →
      cc.complexity_rating = "Trivial") ∧
    (∀ cc : CircuitComplexity, 11 ≤ cc.total_gates → cc.total_gates ≤ 100 →
      cc.complexity_rating = "Simple") ∧
    (∀ cc : CircuitComplexity, 101 ≤ cc.total_gates → cc.total_gates ≤ 1000 →
      cc.complexity_rating = "Moderate") ∧
    (∀ cc : CircuitComplexity, 1001 ≤ cc.total_gates → cc.total_gates ≤ 10000 →
      cc.complexity_rating = "Complex") ∧
    (∀ cc : CircuitComplexity, 10000 < cc.total_gates →
      cc.complexity_rating = "Very Complex") ∧
    (∀ cc1 cc2 : CircuitComplexity, cc1.total_gates = cc2.total_gates →
      cc1.complexity_rating = cc2.complexity_rating) ∧
    (∀ (c : Circuit) (cc : CircuitComplexity), c.complexity_estimate = some cc →
      cc.total_gates = c.gate_count) := by
  refine ⟨?_, ?_, ?_, ?_, ?_, ?_, ?_⟩
  · intro cc h; simp [CircuitComplexity.complexity_rating, h]
  · intro cc h1 h2
    simp only [CircuitComplexity.complexity_rating]
    rw [if_neg (by omega), if_pos (by omega)]
  · intro cc h1 h2
    simp only [CircuitComplexity.complexity_rating]
    rw [if_neg (by omega), if_neg (by omega), if_pos (by omega)]
  · intro cc h1 h2
    simp only [CircuitComplexity.complexity_rating]
    rw [if_neg (by omega), if_neg (by omega), if_neg (by omega), if_pos (by omega)]
  · intro cc h
    simp only [CircuitComplexity.complexity_rating]
    rw [if_neg (by omega), if_neg (by omega), if_neg (by omega), if_neg (by omega)]
  · intro cc1 cc2 h
    simp [CircuitComplexity.complexity_rating, h]
  · intro c cc h
    simp only [Circuit.complexity_estimate] at h
    cases hd : c.depth with
    | none => rw [hd] at h; simp at h
    | some d =>
      rw [hd] at h
      simp only [Option.some.injEq] at h
      subst h
      rfl

/-- Witness for C7 at the band boundaries 10/11/100/101/1000/1001, and for
a concrete circuit's estimate. -/
theorem complexity_rating_bands_witness :
    CircuitComplexity.complexity_rating ⟨10, 0, 0, 0⟩ = "Trivial" ∧
    CircuitComplexity.complexity_rating ⟨11, 0, 0, 0⟩ = "Simple" ∧
    CircuitComplexity.complexity_rating ⟨100, 0, 0, 0⟩ = "Simple" ∧
    CircuitComplexity.complexity_rating ⟨101, 0, 0, 0⟩ = "Moderate" ∧
    CircuitComplexity.complexity_rating ⟨1000, 0, 0, 0⟩ = "Moderate" ∧
    CircuitComplexity.complexity_rating ⟨1001, 0, 0, 0⟩ = "Complex" ∧
    CircuitComplexity.complexity_rating ⟨10001, 0, 0, 0⟩ = "Very Complex" :=
  ⟨complexity_rating_bands.1 ⟨10, 0, 0, 0⟩ (by decide),
   complexity_rating_bands.2.1 ⟨11, 0, 0, 0⟩ (by decide) (by decide),
   complexity_rating_bands.2.1 ⟨100, 0, 0, 0⟩ (by decide) (by decide),
   complexity_rating_bands.2.2.1 ⟨101, 0, 0, 0⟩ (by decide) (by decide),
   complexity_rating_bands.2.2.1 ⟨1000, 0, 0, 0⟩ (by decide) (by decide),
   complexity_rating_bands.2.2.2.1 ⟨1001, 0, 0, 0⟩ (by decide) (by decide),
   complexity_rating_bands.2.2.2.2.1 ⟨10001, 0, 0, 0⟩ (by decide)⟩

/- ### Undetected cycles outside the output cone (C9) -/

/-- C9: a circuit whose gate 1 is `And(1, 1)` — a self-cycle — with the
`Input` gate 0 as output: `has_cycles` explores only the output's cone,
finds nothing, and returns false, although gate 1 lies on a dependency
cycle and nothing is reachable from the output except the output itself. -/
theorem cycle_unreachable_from_output_undetected :
    Circuit.cycleFound ⟨[Gate.Input, Gate.And 1 1], 0⟩ = false ∧
    Relation.TransGen (gateEdge [Gate.Input, Gate.And 1 1]) 1 1 ∧
    (∀ j, Relation.ReflTransGen (gateEdge [Gate.Input, Gate.And 1 1]) 0 j → j = 0) := by
  refine ⟨by decide, ?_, ?_⟩
  · exact Relation.TransGen.single ⟨Gate.And 1 1, rfl, by simp [Gate.operands]⟩
  · intro j h
    induction h with
    | refl => rfl
    | tail _ he ih =>
      subst ih
      obtain ⟨g, hg, hmem⟩ := he
      simp only [List.getElem?_cons_zero, Option.some.injEq] at hg
      subst hg
      simp [Gate.operands] at hmem

/-- Witness for C9: the cycle conjunct, and the unreachability conjunct
applied at the output node itself. -/
theorem cycle_unreachable_from_output_undetected_witness :
    Relation.TransGen (gateEdge [Gate.Input, Gate.And 1 1]) 1 1 ∧ (0 : Nat) = 0 :=
  ⟨cycle_unreachable_from_output_undetected.2.1,
   cycle_unreachable_from_output_undetected.2.2 0 Relation.ReflTransGen.refl⟩

/- ### The invalid-server-key branch of `try_evaluate` (C10) -/

/-- C10: `ServerKeyBytes::tfhe_key` unconditionally returns `Ok`, so
`try_evaluate` is exactly evaluation with its error re-wrapped and can
never produce the invalid-server-key error. -/
theorem try_evaluate_never_invalid_server_key {σ κ : Type} (mkOps : κ → GateOps σ)
    (ec : EncryptedCircuit σ) (sk : ServerKeyBytes κ) :
    sk.tfhe_key = .ok sk.key ∧
    (try_evaluate mkOps ec sk =
      match evaluate_with_tfhe_key (mkOps sk.key) ec with
      | .error e => .error (.evaluationFailed e)
      | .ok out => .ok out) ∧
    (∀ s : String, try_evaluate mkOps ec sk ≠ .error (.invalidServerKey s)) := by
  refine ⟨rfl, rfl, ?_⟩
  intro s h
  simp only [try_evaluate, ServerKeyBytes.tfhe_key] at h
  cases hev : evaluate_with_tfhe_key (mkOps sk.key) ec with
  | error e => rw [hev] at h; exact TryEvalErr.noConfusion (Except.error.inj h)
  | ok out => rw [hev] at h; exact Except.noConfusion h

/- ### Evaluation-time estimate (C8) -/

/-- Predicate for `And` gates (counting per gate kind). -/
def Gate.isAnd : Gate → Bool
  | .And _ _ => true
  | _ => false

/-- Predicate for `Or` gates. -/
def Gate.isOr : Gate → Bool
  | .Or _ _ => true
  | _ => false

/-- Predicate for `Xor` gates. -/
def Gate.isXor : Gate → Bool
  | .Xor _ _ => true
  | _ => false

/-- Predicate for `Not` gates. -/
def Gate.isNot : Gate → Bool
  | .Not _ => true
  | _ => false

theorem foldl_statsStep_and (gs : List Gate) :
    ∀ s : CircuitStats, (gs.foldl statsStep s).and_gates = s.and_gates + gs.countP Gate.isAnd := by
  induction gs with
  | nil => intro s; simp
  | cons g rest ih =>
    intro s
    rw [List.foldl_cons, ih]
    cases g <;> (simp [statsStep, List.countP_cons, Gate.isAnd]; try omega)

theorem foldl_statsStep_or (gs : List Gate) :
    ∀ s : CircuitStats, (gs.foldl statsStep s).or_gates = s.or_gates + gs.countP Gate.isOr := by
  induction gs with
  | nil => intro s; simp
  | cons g rest ih =>
    intro s
    rw [List.foldl_cons, ih]
    cases g <;> (simp [statsStep, List.countP_cons, Gate.isOr]; try omega)

theorem foldl_statsStep_xor (gs : List Gate) :
    ∀ s : CircuitStats, (gs.foldl statsStep s).xor_gates = s.xor_gates + gs.countP Gate.isXor := by
  induction gs with
  | nil => intro s; simp
  | cons g rest ih =>
    intro s
    rw [List.foldl_cons, ih]
    cases g <;> (simp [statsStep, List.countP_cons, Gate.isXor]; try omega)

theorem foldl_statsStep_not (gs : List Gate) :
    ∀ s : CircuitStats, (gs.foldl statsStep s).not_gates = s.not_gates + gs.countP Gate.isNot := by
  induction gs with
  | nil => intro s; simp
  | cons g rest ih =>
    intro s
    rw [List.foldl_cons, ih]
    cases g <;> (simp [statsStep, List.countP_cons, Gate.isNot]; try omega)

theorem stats_and (c : Circuit) : c.stats.and_gates = c.gates.countP Gate.isAnd := by
  simp [Circuit.stats, foldl_statsStep_and, CircuitStats.empty]

theorem stats_or (c : Circuit) : c.stats.or_gates = c.gates.countP Gate.isOr := by
  simp [Circuit.stats, foldl_statsStep_or, CircuitStats.empty]

theorem stats_xor (c : Circuit) : c.stats.xor_gates = c.gates.countP Gate.isXor := by
  simp [Circuit.stats, foldl_statsStep_xor, CircuitStats.empty]

theorem stats_not (c : Circuit) : c.stats.not_gates = c.gates.countP Gate.isNot := by
  simp [Circuit.stats, foldl_statsStep_not, CircuitStats.empty]

/-- C8: a computed evaluation-time estimate equals the maximum of the
critical-path time (depth times the two-operand gate latency) and the
total gate time (AND/OR/XOR gates at 0.1 ms each plus NOT gates at
0.05 ms each), with NOT strictly cheaper.  The gate counts are the
per-kind counts over the whole gate sequence, independent of depth. -/
theorem estimate_evaluation_time_spec (c : Circuit) (cc : CircuitComplexity)
    (h : c.complexity_estimate = some cc) :
    cc.estimated_evaluation_time_ms =
      max ((cc.depth : ℚ) * AND_OR_XOR_TIME_MS)
        (((c.gates.countP Gate.isAnd + c.gates.countP Gate.isOr
            + c.gates.countP Gate.isXor : Nat) : ℚ) * AND_OR_XOR_TIME_MS
          + ((c.gates.countP Gate.isNot : Nat) : ℚ) * NOT_TIME_MS) ∧
    NOT_TIME_MS < AND_OR_XOR_TIME_MS ∧
    AND_OR_XOR_TIME_MS = 1 / 10 ∧ NOT_TIME_MS = 1 / 20 := by
  refine ⟨?_, by norm_num [NOT_TIME_MS, AND_OR_XOR_TIME_MS], rfl, rfl⟩
  simp only [Circuit.complexity_estimate] at h
  cases hd : c.depth with
  | none => rw [hd] at h; simp at h
  | some d =>
    rw [hd] at h
    simp only [Option.some.injEq] at h
    subst h
    show estimate_evaluation_time c.stats d = _
    simp [estimate_evaluation_time, stats_and, stats_or, stats_xor, stats_not]

/-- Witness for C8 at the circuit `Not(Input)`. -/
theorem estimate_evaluation_time_spec_witness :
    Circuit.complexity_estimate ⟨[Gate.Input, Gate.Not 0], 1⟩ =
      some ⟨2, 1, 1,
        estimate_evaluation_time (Circuit.stats ⟨[Gate.Input, Gate.Not 0], 1⟩) 1⟩ ∧
    (⟨2, 1, 1,
        estimate_evaluation_time (Circuit.stats ⟨[Gate.Input, Gate.Not 0], 1⟩) 1⟩ :
        CircuitComplexity).estimated_evaluation_time_ms =
      max (((⟨2, 1, 1,
          estimate_evaluation_time (Circuit.stats ⟨[Gate.Input, Gate.Not 0], 1⟩) 1⟩ :
          CircuitComplexity).depth : ℚ) * AND_OR_XOR_TIME_MS)
        (((([Gate.Input, Gate.Not 0] : List Gate).countP Gate.isAnd +
            ([Gate.Input, Gate.Not 0] : List Gate).countP Gate.isOr +
            ([Gate.Input, Gate.Not 0] : List Gate).countP Gate.isXor : Nat) : ℚ) *
            AND_OR_XOR_TIME_MS +
          ((([Gate.Input, Gate.Not 0] : List Gate).countP Gate.isNot : Nat) : ℚ) *
            NOT_TIME_MS) :=
  ⟨rfl, (estimate_evaluation_time_spec ⟨[Gate.Input, Gate.Not 0], 1⟩
    ⟨2, 1, 1,
      estimate_evaluation_time (Circuit.stats ⟨[Gate.Input, Gate.Not 0], 1⟩) 1⟩ rfl).1⟩

/- ### Depth (C5) -/

theorem set_boundary {α : Type} (z v : α) (tail : List α) :
    ∀ (pre : List α) {n : Nat}, n = pre.length →
      (pre ++ z :: tail).set n v = pre ++ v :: tail := by
  intro pre hn
  intro h
  subst h
  induction pre with
  | nil => rfl
  | cons a pre ih =>
    show a :: (pre ++ z :: tail).set pre.length v = a :: (pre ++ v :: tail)
    rw [ih]

theorem depthRec_input {gates : List Gate} {i : Nat} (hg : gates[i]? = some .Input) :
    depthRec gates i = 0 := by
  rw [depthRec.eq_def]
  simp [hg]

theorem depthRec_constant {gates : List Gate} {i : Nat} {v : Bool}
    (hg : gates[i]? = some (.Constant v)) : depthRec gates i = 0 := by
  rw [depthRec.eq_def]
  simp [hg]

theorem depthRec_not {gates : List Gate} {i x : Nat} (hg : gates[i]? = some (.Not x))
    (hx : x < i) : depthRec gates i = depthRec gates x + 1 := by
  rw [depthRec.eq_def]
  simp [hg, hx]

theorem depthRec_and {gates : List Gate} {i l r : Nat} (hg : gates[i]? = some (.And l r))
    (hl : l < i) (hr : r < i) :
    depthRec gates i = max (depthRec gates l) (depthRec gates r) + 1 := by
  rw [depthRec.eq_def]
  simp [hg, hl, hr]

theorem depthRec_or {gates : List Gate} {i l r : Nat} (hg : gates[i]? = some (.Or l r))
    (hl : l < i) (hr : r < i) :
    depthRec gates i = max (depthRec gates l) (depthRec gates r) + 1 := by
  rw [depthRec.eq_def]
  simp [hg, hl, hr]

theorem depthRec_xor {gates : List Gate} {i l r : Nat} (hg : gates[i]? = some (.Xor l r))
    (hl : l < i) (hr : r < i) :
    depthRec gates i = max (depthRec gates l) (depthRec gates r) + 1 := by
  rw [depthRec.eq_def]
  simp [hg, hl, hr]

/-- Reading a position inside the computed prefix of the depth table. -/
theorem depth_table_read (gates : List Gate) (tail : List Nat) {m j : Nat} (hj : j < m) :
    ((List.range m).map (depthRec gates) ++ tail)[j]? = some (depthRec gates j) := by
  rw [List.getElem?_append, if_pos (by simpa using hj)]
  simp [List.getElem?_map, List.getElem?_range, hj]

/-- Invariant of the `depth` loop: once the first `done.length` table
entries hold the recurrence values, running the loop over the remaining
gates completes without a panic and yields the table of all recurrence
values. -/
theorem depthLoopFrom_spec {gates : List Gate} (htopo : topoOkB gates = true) :
    ∀ (rem done : List Gate), gates = done ++ rem →
      depthLoopFrom rem
        ((List.range done.length).map (depthRec gates) ++ List.replicate rem.length 0)
        done.length
      = some ((List.range gates.length).map (depthRec gates)) := by
  intro rem
  induction rem with
  | nil =>
    intro done hdone
    subst hdone
    simp [depthLoopFrom]
  | cons g rest ih =>
    intro done hdone
    have hgi : gates[done.length]? = some g := by
      rw [hdone, List.getElem?_append_right (Nat.le_refl _)]
      simp
    have hoper : ∀ j, j ∈ g.operands → j < done.length := by
      intro j hj
      have := topoFromB_lt htopo hgi hj
      simpa using this
    have hrep : List.replicate (g :: rest).length (0 : Nat) =
        0 :: List.replicate rest.length 0 := by
      simp [List.replicate_succ]
    have hlen : done.length = ((List.range done.length).map (depthRec gates)).length := by
      simp
    have hstep : ∀ v : Nat, v = depthRec gates done.length →
        depthLoopFrom rest
          (((List.range done.length).map (depthRec gates) ++
            List.replicate (g :: rest).length 0).set done.length v)
          (done.length + 1)
        = some ((List.range gates.length).map (depthRec gates)) := by
      intro v hv
      rw [hrep, set_boundary _ _ _ _ hlen]
      have hnext := ih (done ++ [g]) (by rw [hdone, List.append_assoc]; rfl)
      have heq : (List.range (done ++ [g]).length).map (depthRec gates) =
          (List.range done.length).map (depthRec gates) ++ [depthRec gates done.length] := by
        simp [List.range_succ]
      rw [heq] at hnext
      simpa [hv, List.append_assoc] using hnext
    cases g with
    | Input =>
      simp only [depthLoopFrom, depthStep]
      exact hstep 0 (depthRec_input hgi).symm
    | Constant v =>
      simp only [depthLoopFrom, depthStep]
      exact hstep 0 (depthRec_constant hgi).symm
    | Not x =>
      have hx := hoper x (by simp [Gate.operands])
      have hrx := depth_table_read gates
        (List.replicate (Gate.Not x :: rest).length (0 : Nat)) hx
      simp only [depthLoopFrom, depthStep, hrx]
      exact hstep _ (depthRec_not hgi hx).symm
    | And l r =>
      have hl := hoper l (by simp [Gate.operands])
      have hr := hoper r (by simp [Gate.operands])
      have hrl := depth_table_read gates
        (List.replicate (Gate.And l r :: rest).length (0 : Nat)) hl
      have hrr := depth_table_read gates
        (List.replicate (Gate.And l r :: rest).length (0 : Nat)) hr
      simp only [depthLoopFrom, depthStep, hrl, hrr]
      exact hstep _ (depthRec_and hgi hl hr).symm
    | Or l r =>
      have hl := hoper l (by simp [Gate.operands])
      have hr := hoper r (by simp [Gate.operands])
      have hrl := depth_table_read gates
        (List.replicate (Gate.Or l r :: rest).length (0 : Nat)) hl
      have hrr := depth_table_read gates
        (List.replicate (Gate.Or l r :: rest).length (0 : Nat)) hr
      simp only [depthLoopFrom, depthStep, hrl, hrr]
      exact hstep _ (depthRec_or hgi hl hr).symm
    | Xor l r =>
      have hl := hoper l (by simp [Gate.operands])
      have hr := hoper r (by simp [Gate.operands])
      have hrl := depth_table_read gates
        (List.replicate (Gate.Xor l r :: rest).length (0 : Nat)) hl
      have hrr := depth_table_read gates
        (List.replicate (Gate.Xor l r :: rest).length (0 : Nat)) hr
      simp only [depthLoopFrom, depthStep, hrl, hrr]
      exact hstep _ (depthRec_xor hgi hl hr).symm

/-- C5: for every circuit satisfying the topological-order invariant with
an in-bounds output index, `depth()` completes without panicking and
returns the value of the recurrence — leaves at depth 0, one-operand
gates `1 + depth(operand)`, two-operand gates
`1 + max(depth(left), depth(right))` — evaluated at the output index; in
particular the circuit `and1 = AND(x, y); and2 = AND(and1, z);
output = OR(and2, x)` has depth 3. -/
theorem depth_matches_recurrence (c : Circuit) (htopo : topoOkB c.gates = true)
    (hout : c.output < c.gates.length) :
    c.depth = some (depthRec c.gates c.output) ∧
    Circuit.depth ⟨[Gate.Input, Gate.Input, Gate.Input,
      Gate.And 0 1, Gate.And 3 2, Gate.Or 4 0], 5⟩ = some 3 := by
  refine ⟨?_, by decide⟩
  have h := depthLoopFrom_spec htopo c.gates [] rfl
  simp only [List.length_nil, List.range_zero, List.map_nil, List.nil_append] at h
  simp only [Circuit.depth, h]
  simp [List.getElem?_map, List.getElem?_range, hout]

/-- Witness for C5 at the example circuit from the spec. -/
theorem depth_matches_recurrence_witness :
    topoOkB ([Gate.Input, Gate.Input, Gate.Input,
      Gate.And 0 1, Gate.And 3 2, Gate.Or 4 0] : List Gate) = true ∧
    (5 : Nat) < ([Gate.Input, Gate.Input, Gate.Input,
      Gate.And 0 1, Gate.And 3 2, Gate.Or 4 0] : List Gate).length ∧
    Circuit.depth ⟨[Gate.Input, Gate.Input, Gate.Input,
      Gate.And 0 1, Gate.And 3 2, Gate.Or 4 0], 5⟩ =
      some (depthRec [Gate.Input, Gate.Input, Gate.Input,
        Gate.And 0 1, Gate.And 3 2, Gate.Or 4 0] 5) :=
  ⟨by decide, by decide,
   (depth_matches_recurrence ⟨[Gate.Input, Gate.Input, Gate.Input,
      Gate.And 0 1, Gate.And 3 2, Gate.Or 4 0], 5⟩ (by decide) (by decide)).1⟩

/- ### Evaluation walk (C2) -/

theorem map_some_read {σ : Type} (l : List σ) (d : σ) {j : Nat} (hj : j < l.length) :
    (l.map some)[j]? = some (some (l.getD j d)) := by
  induction l generalizing j with
  | nil => simp at hj
  | cons a l ih =>
    cases j with
    | zero => simp [List.getD]
    | succ k =>
      simp only [List.map_cons, List.getElem?_cons_succ]
      have hk : k < l.length := by simpa using hj
      rw [ih hk]
      simp [List.getD]

theorem getElem?_eq_getD {σ : Type} (l : List σ) (d : σ) {j : Nat} (hj : j < l.length) :
    l[j]? = some (l.getD j d) := by
  induction l generalizing j with
  | nil => simp at hj
  | cons a l ih =>
    cases j with
    | zero => simp [List.getD]
    | succ k =>
      simp only [List.getElem?_cons_succ]
      have hk : k < l.length := by simpa using hj
      rw [ih hk]
      simp [List.getD]

/-- Reading a position inside the computed prefix of the results table
always yields the stored ciphertext, never an error. -/
theorem eval_table_read {σ : Type} (acc : List σ) (tail : List (Option σ)) (d : σ)
    {j : Nat} (hj : j < acc.length) (mk : Nat → EvalErr) :
    lookupComputed (acc.map some ++ tail) j mk = .ok (acc.getD j d) := by
  unfold lookupComputed
  rw [List.getElem?_append, if_pos (by simpa using hj), map_some_read acc d hj]

theorem countInputsL_cons_input (rest : List Gate) :
    countInputsL (Gate.Input :: rest) = countInputsL rest + 1 := by
  simp [countInputsL, List.filter_cons, Gate.isInput]

theorem countInputsL_cons_other {g : Gate} (hg : g.isInput = false) (rest : List Gate) :
    countInputsL (g :: rest) = countInputsL rest := by
  simp [countInputsL, List.filter_cons, hg]

/-- Invariant of the evaluation walk: once the results table holds the
reference values for the processed prefix (`acc`) and `k` inputs have
been consumed, processing the remaining gates succeeds and produces the
full reference table. -/
theorem evalFrom_spec {σ : Type} (ops : GateOps σ) (ec : EncryptedCircuit σ) (d : σ) :
    ∀ (rem : List Gate) (acc : List σ) (k : Nat),
      topoFromB acc.length rem = true →
      k + countInputsL rem = ec.encrypted_inputs.length →
      evalFrom ops ec rem (acc.map some ++ List.replicate rem.length none) acc.length k
        = .ok ((specTableAux ops ec d rem acc k).map some) := by
  intro rem
  induction rem with
  | nil => intro acc k _ _; simp [evalFrom, specTableAux]
  | cons g rest ih =>
    intro acc k htopo hk
    simp only [topoFromB, Bool.and_eq_true] at htopo
    have hoper : ∀ j, j ∈ g.operands → j < acc.length := by
      intro j hj
      simpa using List.all_eq_true.mp htopo.1 j hj
    have hrep : List.replicate (g :: rest).length (none : Option σ) =
        none :: List.replicate rest.length none := by
      simp [List.replicate_succ]
    have hlen : acc.length = (acc.map some).length := by simp
    have hstep : ∀ (v : σ) (k2 : Nat), k2 + countInputsL rest = ec.encrypted_inputs.length →
        evalFrom ops ec rest
          ((acc.map some ++ List.replicate (g :: rest).length none).set acc.length (some v))
          (acc.length + 1) k2
        = .ok ((specTableAux ops ec d rest (acc ++ [v]) k2).map some) := by
      intro v k2 hk2
      rw [hrep, set_boundary _ _ _ _ hlen]
      have hnext := ih (acc ++ [v]) k2 (by simpa using htopo.2) hk2
      simpa [List.append_assoc] using hnext
    cases g with
    | Input =>
      rw [countInputsL_cons_input] at hk
      have hklt : k < ec.encrypted_inputs.length := by omega
      simp only [evalFrom, specTableAux, getElem?_eq_getD ec.encrypted_inputs d hklt]
      exact hstep _ _ (by omega)
    | Constant v =>
      rw [countInputsL_cons_other (by rfl)] at hk
      simp only [evalFrom, specTableAux]
      exact hstep _ _ hk
    | And l r =>
      rw [countInputsL_cons_other (by rfl)] at hk
      have hl := hoper l (by simp [Gate.operands])
      have hr := hoper r (by simp [Gate.operands])
      have hrl := eval_table_read acc
        (List.replicate (Gate.And l r :: rest).length none) d hl EvalErr.leftNotComputed
      have hrr := eval_table_read acc
        (List.replicate (Gate.And l r :: rest).length none) d hr EvalErr.rightNotComputed
      simp only [evalFrom, specTableAux, hrl, hrr, bind, Except.bind]
      exact hstep _ _ hk
    | Or l r =>
      rw [countInputsL_cons_other (by rfl)] at hk
      have hl := hoper l (by simp [Gate.operands])
      have hr := hoper r (by simp [Gate.operands])
      have hrl := eval_table_read acc
        (List.replicate (Gate.Or l r :: rest).length none) d hl EvalErr.leftNotComputed
      have hrr := eval_table_read acc
        (List.replicate (Gate.Or l r :: rest).length none) d hr EvalErr.rightNotComputed
      simp only [evalFrom, specTableAux, hrl, hrr, bind, Except.bind]
      exact hstep _ _ hk
    | Xor l r =>
      rw [countInputsL_cons_other (by rfl)] at hk
      have hl := hoper l (by simp [Gate.operands])
      have hr := hoper r (by simp [Gate.operands])
      have hrl := eval_table_read acc
        (List.replicate (Gate.Xor l r :: rest).length none) d hl EvalErr.leftNotComputed
      have hrr := eval_table_read acc
        (List.replicate (Gate.Xor l r :: rest).length none) d hr EvalErr.rightNotComputed
      simp only [evalFrom, specTableAux, hrl, hrr, bind, Except.bind]
      exact hstep _ _ hk
    | Not x =>
      rw [countInputsL_cons_other (by rfl)] at hk
      have hx := hoper x (by simp [Gate.operands])
      have hrx := eval_table_read acc
        (List.replicate (Gate.Not x :: rest).length none) d hx EvalErr.operandNotComputed
      simp only [evalFrom, specTableAux, hrx, bind, Except.bind]
      exact hstep _ _ hk

theorem specTableAux_length {σ : Type} (ops : GateOps σ) (ec : EncryptedCircuit σ) (d : σ) :
    ∀ (rem : List Gate) (acc : List σ) (k : Nat),
      (specTableAux ops ec d rem acc k).length = acc.length + rem.length := by
  intro rem
  induction rem with
  | nil => intro acc k; simp [specTableAux]
  | cons g rest ih =>
    intro acc k
    cases g <;> (simp [specTableAux, ih]; try omega)

/-- C2: for every encrypted circuit whose gate sequence satisfies the
topological-order invariant, whose output index is in bounds and whose
bound input sequence has one ciphertext per `Input` gate, the evaluation
walk processes the gate sequence once in stored order — each `Input`
gate taking the next unconsumed bound ciphertext in order, each
`Constant` gate the pre-bound encrypted constant, each Boolean gate the
backend primitive applied to its operands' table entries — and returns
exactly the single-element sequence holding the results-table entry at
the designated output index. -/
theorem evaluate_walks_topologically {σ : Type} (ops : GateOps σ)
    (ec : EncryptedCircuit σ) (d : σ)
    (htopo : topoOkB ec.circuit.gates = true)
    (hout : ec.circuit.output < ec.circuit.gates.length)
    (hcount : ec.encrypted_inputs.length = ec.circuit.count_inputs) :
    evaluate_with_tfhe_key ops ec =
      .ok [(specTable ops ec d).getD ec.circuit.output d] := by
  have h := evalFrom_spec ops ec d ec.circuit.gates [] 0 (by simpa [topoOkB] using htopo)
    (by simpa [Circuit.count_inputs] using hcount.symm)
  simp only [List.map_nil, List.nil_append, List.length_nil] at h
  have hlen : (specTableAux ops ec d ec.circuit.gates [] 0).length =
      ec.circuit.gates.length := by
    simpa using specTableAux_length ops ec d ec.circuit.gates [] 0
  have hread : ((specTableAux ops ec d ec.circuit.gates [] 0).map some)[ec.circuit.output]? =
      some (some ((specTableAux ops ec d ec.circuit.gates [] 0).getD ec.circuit.output d)) :=
    map_some_read _ d (by rw [hlen]; exact hout)
  simp only [evaluate_with_tfhe_key, h, hread, specTable]

/-- Witness for C2 at the two-input XOR circuit over the Boolean backend. -/
theorem evaluate_walks_topologically_witness :
    topoOkB ([Gate.Input, Gate.Input, Gate.Xor 0 1] : List Gate) = true ∧
    evaluate_with_tfhe_key ⟨Bool.and, Bool.or, Bool.xor, Bool.not⟩
      ⟨⟨[Gate.Input, Gate.Input, Gate.Xor 0 1], 2⟩, [true, false], false, true⟩ =
      .ok [(specTable ⟨Bool.and, Bool.or, Bool.xor, Bool.not⟩
        ⟨⟨[Gate.Input, Gate.Input, Gate.Xor 0 1], 2⟩, [true, false], false, true⟩
        false).getD 2 false] :=
  ⟨by decide,
   evaluate_walks_topologically ⟨Bool.and, Bool.or, Bool.xor, Bool.not⟩
     ⟨⟨[Gate.Input, Gate.Input, Gate.Xor 0 1], 2⟩, [true, false], false, true⟩ false
     (by decide) (by decide) (by decide)⟩

/- ### Validation (C3) -/

instance exceptDecidableEq {ε α : Type} [DecidableEq ε] [DecidableEq α] :
    DecidableEq (Except ε α) := fun x y =>
  match x, y with
  | .error a, .error b =>
    if h : a = b then isTrue (by rw [h]) else isFalse (fun hc => h (Except.error.inj hc))
  | .error a, .ok b => isFalse (fun hc => Except.noConfusion hc)
  | .ok a, .error b => isFalse (fun hc => Except.noConfusion hc)
  | .ok a, .ok b =>
    if h : a = b then isTrue (by rw [h]) else isFalse (fun hc => h (Except.ok.inj hc))

/-- Number of unvisited (`false`) entries of a marker array. -/
def countFalse (l : List Bool) : Nat := l.countP (fun b => !b)

theorem countFalse_replicate_false (n : Nat) :
    countFalse (List.replicate n false) = n := by
  induction n with
  | zero => rfl
  | succ k ih => simp [countFalse, List.replicate_succ, List.countP_cons] at *; omega

theorem countFalse_set_true (l : List Bool) :
    ∀ n, countFalse (l.set n true) ≤ countFalse l := by
  induction l with
  | nil => intro n; simp [countFalse]
  | cons a l ih =>
    intro n
    cases n with
    | zero =>
      show countFalse (true :: l) ≤ countFalse (a :: l)
      cases a <;> (simp [countFalse, List.countP_cons]; try omega)
    | succ k =>
      show countFalse (a :: l.set k true) ≤ countFalse (a :: l)
      have := ih k
      simp only [countFalse, List.countP_cons] at *
      omega

theorem countFalse_set_true_lt (l : List Bool) :
    ∀ n, l[n]? = some false → countFalse (l.set n true) < countFalse l := by
  induction l with
  | nil => intro n h; simp at h
  | cons a l ih =>
    intro n h
    cases n with
    | zero =>
      simp only [List.getElem?_cons_zero, Option.some.injEq] at h
      subst h
      show countFalse (true :: l) < countFalse (false :: l)
      simp [countFalse, List.countP_cons]
    | succ k =>
      simp only [List.getElem?_cons_succ] at h
      show countFalse (a :: l.set k true) < countFalse (a :: l)
      have := ih k h
      simp only [countFalse, List.countP_cons] at *
      omega

/-- The DFS only ever sets marks: a `returned` outcome preserves the array
lengths and cannot increase the number of unvisited nodes. -/
theorem hasCyclesUtil_mono (gates : List Gate) :
    ∀ (fuel node : Nat) (v r : List Bool) (b : Bool) (v' r' : List Bool),
      hasCyclesUtil gates fuel node v r = .returned b v' r' →
      v'.length = v.length ∧ r'.length = r.length ∧ countFalse v' ≤ countFalse v := by
  intro fuel
  induction fuel with
  | zero => intro node v r b v' r' h; simp [hasCyclesUtil] at h
  | succ fuel ih =>
    intro node v r b v' r' h
    simp only [hasCyclesUtil] at h
    cases hrn : r[node]? with
    | none => simp only [hrn] at h; exact UtilRes.noConfusion h
    | some rb =>
      simp only [hrn] at h
      cases rb with
      | true =>
        injection h with h1 h2 h3
        subst h2; subst h3
        exact ⟨rfl, rfl, Nat.le_refl _⟩
      | false =>
        cases hvn : v[node]? with
        | none => simp only [hvn] at h; exact UtilRes.noConfusion h
        | some vb =>
          simp only [hvn] at h
          cases vb with
          | true =>
            injection h with h1 h2 h3
            subst h2; subst h3
            exact ⟨rfl, rfl, Nat.le_refl _⟩
          | false =>
            cases hg : gates[node]? with
            | none => simp only [hg] at h; exact UtilRes.noConfusion h
            | some g =>
              simp only [hg] at h
              have hset : (v.set node true).length = v.length ∧
                  countFalse (v.set node true) ≤ countFalse v :=
                ⟨List.length_set v node true, countFalse_set_true v node⟩
              cases g with
              | Input =>
                injection h with h1 h2 h3
                subst h2; subst h3
                refine ⟨hset.1, ?_, hset.2⟩
                simp
              | Constant val =>
                injection h with h1 h2 h3
                subst h2; subst h3
                refine ⟨hset.1, ?_, hset.2⟩
                simp
              | Not x =>
                cases hrec : hasCyclesUtil gates fuel x (v.set node true) (r.set node true) with
                | outOfFuel => simp only [hrec] at h; exact UtilRes.noConfusion h
                | panicked m => simp only [hrec] at h; exact UtilRes.noConfusion h
                | returned b2 v2 r2 =>
                  simp only [hrec] at h
                  obtain ⟨e1, e2, e3⟩ := ih x (v.set node true) (r.set node true) b2 v2 r2 hrec
                  cases b2 with
                  | true =>
                    injection h with h1 h2 h3
                    subst h2; subst h3
                    refine ⟨by simpa using e1, by simpa using e2, ?_⟩
                    exact Nat.le_trans e3 hset.2
                  | false =>
                    injection h with h1 h2 h3
                    subst h2; subst h3
                    refine ⟨by simpa using e1, by simpa using e2, ?_⟩
                    exact Nat.le_trans e3 hset.2
              | And l rr =>
                cases hrec : hasCyclesUtil gates fuel l (v.set node true) (r.set node true) with
                | outOfFuel => simp only [hrec] at h; exact UtilRes.noConfusion h
                | panicked m => simp only [hrec] at h; exact UtilRes.noConfusion h
                | returned b2 v2 r2 =>
                  simp only [hrec] at h
                  obtain ⟨e1, e2, e3⟩ := ih l (v.set node true) (r.set node true) b2 v2 r2 hrec
                  cases b2 with
                  | true =>
                    injection h with h1 h2 h3
                    subst h2; subst h3
                    refine ⟨by simpa using e1, by simpa using e2, ?_⟩
                    exact Nat.le_trans e3 hset.2
                  | false =>
                    cases hrec2 : hasCyclesUtil gates fuel rr v2 r2 with
                    | outOfFuel => simp only [hrec2] at h; exact UtilRes.noConfusion h
                    | panicked m => simp only [hrec2] at h; exact UtilRes.noConfusion h
                    | returned b3 v3 r3 =>
                      simp only [hrec2] at h
                      obtain ⟨f1, f2, f3⟩ := ih rr v2 r2 b3 v3 r3 hrec2
                      cases b3 with
                      | true =>
                        injection h with h1 h2 h3
                        subst h2; subst h3
                        refine ⟨?_, ?_, ?_⟩
                        · rw [f1, e1]; simp
                        · rw [f2, e2]; simp
                        · exact Nat.le_trans f3 (Nat.le_trans e3 hset.2)
                      | false =>
                        injection h with h1 h2 h3
                        subst h2; subst h3
                        refine ⟨?_, ?_, ?_⟩
                        · rw [f1, e1]; simp
                        · rw [List.length_set, f2, e2]; simp
                        · exact Nat.le_trans f3 (Nat.le_trans e3 hset.2)
              | Or l rr =>
                cases hrec : hasCyclesUtil gates fuel l (v.set node true) (r.set node true) with
                | outOfFuel => simp only [hrec] at h; exact UtilRes.noConfusion h
                | panicked m => simp only [hrec] at h; exact UtilRes.noConfusion h
                | returned b2 v2 r2 =>
                  simp only [hrec] at h
                  obtain ⟨e1, e2, e3⟩ := ih l (v.set node true) (r.set node true) b2 v2 r2 hrec
                  cases b2 with
                  | true =>
                    injection h with h1 h2 h3
                    subst h2; subst h3
                    refine ⟨by simpa using e1, by simpa using e2, ?_⟩
                    exact Nat.le_trans e3 hset.2
                  | false =>
                    cases hrec2 : hasCyclesUtil gates fuel rr v2 r2 with
                    | outOfFuel => simp only [hrec2] at h; exact UtilRes.noConfusion h
                    | panicked m => simp only [hrec2] at h; exact UtilRes.noConfusion h
                    | returned b3 v3 r3 =>
                      simp only [hrec2] at h
                      obtain ⟨f1, f2, f3⟩ := ih rr v2 r2 b3 v3 r3 hrec2
                      cases b3 with
                      | true =>
                        injection h with h1 h2 h3
                        subst h2; subst h3
                        refine ⟨?_, ?_, ?_⟩
                        · rw [f1, e1]; simp
                        · rw [f2, e2]; simp
                        · exact Nat.le_trans f3 (Nat.le_trans e3 hset.2)
                      | false =>
                        injection h with h1 h2 h3
                        subst h2; subst h3
                        refine ⟨?_, ?_, ?_⟩
                        · rw [f1, e1]; simp
                        · rw [List.length_set, f2, e2]; simp
                        · exact Nat.le_trans f3 (Nat.le_trans e3 hset.2)
              | Xor l rr =>
                cases hrec : hasCyclesUtil gates fuel l (v.set node true) (r.set node true) with
                | outOfFuel => simp only [hrec] at h; exact UtilRes.noConfusion h
                | panicked m => simp only [hrec] at h; exact UtilRes.noConfusion h
                | returned b2 v2 r2 =>
                  simp only [hrec] at h
                  obtain ⟨e1, e2, e3⟩ := ih l (v.set node true) (r.set node true) b2 v2 r2 hrec
                  cases b2 with
                  | true =>
                    injection h with h1 h2 h3
                    subst h2; subst h3
                    refine ⟨by simpa using e1, by simpa using e2, ?_⟩
                    exact Nat.le_trans e3 hset.2
                  | false =>
                    cases hrec2 : hasCyclesUtil gates fuel rr v2 r2 with
                    | outOfFuel => simp only [hrec2] at h; exact UtilRes.noConfusion h
                    | panicked m => simp only [hrec2] at h; exact UtilRes.noConfusion h
                    | returned b3 v3 r3 =>
                      simp only [hrec2] at h
                      obtain ⟨f1, f2, f3⟩ := ih rr v2 r2 b3 v3 r3 hrec2
                      cases b3 with
                      | true =>
                        injection h with h1 h2 h3
                        subst h2; subst h3
                        refine ⟨?_, ?_, ?_⟩
                        · rw [f1, e1]; simp
                        · rw [f2, e2]; simp
                        · exact Nat.le_trans f3 (Nat.le_trans e3 hset.2)
                      | false =>
                        injection h with h1 h2 h3
                        subst h2; subst h3
                        refine ⟨?_, ?_, ?_⟩
                        · rw [f1, e1]; simp
                        · rw [List.length_set, f2, e2]; simp
                        · exact Nat.le_trans f3 (Nat.le_trans e3 hset.2)

theorem mem_of_read {α : Type} (l : List α) :
    ∀ (n : Nat) (a : α), l[n]? = some a → a ∈ l := by
  induction l with
  | nil => intro n a h; simp at h
  | cons x l ih =>
    intro n a h
    cases n with
    | zero => simp only [List.getElem?_cons_zero, Option.some.injEq] at h; simp [h]
    | succ k =>
      simp only [List.getElem?_cons_succ] at h
      exact List.mem_cons_of_mem x (ih k a h)

/-- Every operand index stored anywhere in the gate sequence is below the
gate count (the condition under which the cycle DFS cannot panic). -/
def operandsInBounds (gates : List Gate) : Bool :=
  gates.all (fun g => g.operands.all (fun j => decide (j < gates.length)))

theorem operandsInBounds_mem {gates : List Gate} (hb : operandsInBounds gates = true)
    {i : Nat} {g : Gate} {j : Nat} (hg : gates[i]? = some g) (hj : j ∈ g.operands) :
    j < gates.length := by
  have hgmem : g ∈ gates := mem_of_read gates i g hg
  have := List.all_eq_true.mp hb g hgmem
  simpa using List.all_eq_true.mp this j hj

/-- With in-bounds operand indices and enough fuel, the DFS always returns
(it neither panics nor runs out of fuel). -/
theorem hasCyclesUtil_total {gates : List Gate} (hb : operandsInBounds gates = true) :
    ∀ (fuel node : Nat) (v r : List Bool), v.length = gates.length →
      r.length = gates.length → node < gates.length → countFalse v < fuel →
      ∃ b v' r', hasCyclesUtil gates fuel node v r = .returned b v' r' := by
  intro fuel
  induction fuel with
  | zero => intro node v r _ _ _ hc; exact absurd hc (Nat.not_lt_zero _)
  | succ fuel ih =>
    intro node v r hv hr hnode hc
    simp only [hasCyclesUtil]
    cases hrn : r[node]? with
    | none =>
      have := List.getElem?_eq_none_iff.mp hrn
      omega
    | some rb =>
      cases rb with
      | true => exact ⟨true, v, r, rfl⟩
      | false =>
        cases hvn : v[node]? with
        | none =>
          have := List.getElem?_eq_none_iff.mp hvn
          omega
        | some vb =>
          cases vb with
          | true => exact ⟨false, v, r, rfl⟩
          | false =>
            cases hg : gates[node]? with
            | none =>
              have := List.getElem?_eq_none_iff.mp hg
              omega
            | some g =>
              have hv1 : (v.set node true).length = gates.length := by simp [hv]
              have hr1 : (r.set node true).length = gates.length := by simp [hr]
              have hc1 : countFalse (v.set node true) < fuel := by
                have := countFalse_set_true_lt v node hvn
                omega
              cases g with
              | Input => exact ⟨false, _, _, rfl⟩
              | Constant val => exact ⟨false, _, _, rfl⟩
              | Not x =>
                have hx : x < gates.length :=
                  operandsInBounds_mem hb hg (by simp [Gate.operands])
                obtain ⟨b2, v2, r2, hrec⟩ := ih x (v.set node true) (r.set node true)
                  hv1 hr1 hx hc1
                show ∃ b v' r',
                  (match hasCyclesUtil gates fuel x (v.set node true) (r.set node true) with
                    | UtilRes.outOfFuel => UtilRes.outOfFuel
                    | UtilRes.panicked m => UtilRes.panicked m
                    | UtilRes.returned true v2 r2 => UtilRes.returned true v2 r2
                    | UtilRes.returned false v2 r2 =>
                      UtilRes.returned false v2 (r2.set node false))
                    = UtilRes.returned b v' r'
                rw [hrec]
                cases b2 with
                | true => exact ⟨true, v2, r2, rfl⟩
                | false => exact ⟨false, v2, r2.set node false, rfl⟩
              | And l rr =>
                have hl : l < gates.length :=
                  operandsInBounds_mem hb hg (by simp [Gate.operands])
                have hrb : rr < gates.length :=
                  operandsInBounds_mem hb hg (by simp [Gate.operands])
                obtain ⟨b2, v2, r2, hrec⟩ := ih l (v.set node true) (r.set node true)
                  hv1 hr1 hl hc1
                show ∃ b v' r',
                  (match hasCyclesUtil gates fuel l (v.set node true) (r.set node true) with
                    | UtilRes.outOfFuel => UtilRes.outOfFuel
                    | UtilRes.panicked m => UtilRes.panicked m
                    | UtilRes.returned true v2 r2 => UtilRes.returned true v2 r2
                    | UtilRes.returned false v2 r2 =>
                      match hasCyclesUtil gates fuel rr v2 r2 with
                      | UtilRes.outOfFuel => UtilRes.outOfFuel
                      | UtilRes.panicked m => UtilRes.panicked m
                      | UtilRes.returned true v3 r3 => UtilRes.returned true v3 r3
                      | UtilRes.returned false v3 r3 =>
                        UtilRes.returned false v3 (r3.set node false))
                    = UtilRes.returned b v' r'
                rw [hrec]
                cases b2 with
                | true => exact ⟨true, v2, r2, rfl⟩
                | false =>
                  obtain ⟨e1, e2, e3⟩ :=
                    hasCyclesUtil_mono gates fuel l (v.set node true) (r.set node true)
                      false v2 r2 hrec
                  obtain ⟨b3, v3, r3, hrec2⟩ := ih rr v2 r2 (by rw [e1, hv1])
                    (by rw [e2, hr1]) hrb (by omega)
                  show ∃ b v' r',
                    (match hasCyclesUtil gates fuel rr v2 r2 with
                      | UtilRes.outOfFuel => UtilRes.outOfFuel
                      | UtilRes.panicked m => UtilRes.panicked m
                      | UtilRes.returned true v3 r3 => UtilRes.returned true v3 r3
                      | UtilRes.returned false v3 r3 =>
                        UtilRes.returned false v3 (r3.set node false))
                      = UtilRes.returned b v' r'
                  rw [hrec2]
                  cases b3 with
                  | true => exact ⟨true, v3, r3, rfl⟩
                  | false => exact ⟨false, v3, r3.set node false, rfl⟩
              | Or l rr =>
                have hl : l < gates.length :=
                  operandsInBounds_mem hb hg (by simp [Gate.operands])
                have hrb : rr < gates.length :=
                  operandsInBounds_mem hb hg (by simp [Gate.operands])
                obtain ⟨b2, v2, r2, hrec⟩ := ih l (v.set node true) (r.set node true)
                  hv1 hr1 hl hc1
                show ∃ b v' r',
                  (match hasCyclesUtil gates fuel l (v.set node true) (r.set node true) with
                    | UtilRes.outOfFuel => UtilRes.outOfFuel
                    | UtilRes.panicked m => UtilRes.panicked m
                    | UtilRes.returned true v2 r2 => UtilRes.returned true v2 r2
                    | UtilRes.returned false v2 r2 =>
                      match hasCyclesUtil gates fuel rr v2 r2 with
                      | UtilRes.outOfFuel => UtilRes.outOfFuel
                      | UtilRes.panicked m => UtilRes.panicked m
                      | UtilRes.returned true v3 r3 => UtilRes.returned true v3 r3
                      | UtilRes.returned false v3 r3 =>
                        UtilRes.returned false v3 (r3.set node false))
                    = UtilRes.returned b v' r'
                rw [hrec]
                cases b2 with
                | true => exact ⟨true, v2, r2, rfl⟩
                | false =>
                  obtain ⟨e1, e2, e3⟩ :=
                    hasCyclesUtil_mono gates fuel l (v.set node true) (r.set node true)
                      false v2 r2 hrec
                  obtain ⟨b3, v3, r3, hrec2⟩ := ih rr v2 r2 (by rw [e1, hv1])
                    (by rw [e2, hr1]) hrb (by omega)
                  show ∃ b v' r',
                    (match hasCyclesUtil gates fuel rr v2 r2 with
                      | UtilRes.outOfFuel => UtilRes.outOfFuel
                      | UtilRes.panicked m => UtilRes.panicked m
                      | UtilRes.returned true v3 r3 => UtilRes.returned true v3 r3
                      | UtilRes.returned false v3 r3 =>
                        UtilRes.returned false v3 (r3.set node false))
                      = UtilRes.returned b v' r'
                  rw [hrec2]
                  cases b3 with
                  | true => exact ⟨true, v3, r3, rfl⟩
                  | false => exact ⟨false, v3, r3.set node false, rfl⟩
              | Xor l rr =>
                have hl : l < gates.length :=
                  operandsInBounds_mem hb hg (by simp [Gate.operands])
                have hrb : rr < gates.length :=
                  operandsInBounds_mem hb hg (by simp [Gate.operands])
                obtain ⟨b2, v2, r2, hrec⟩ := ih l (v.set node true) (r.set node true)
                  hv1 hr1 hl hc1
                show ∃ b v' r',
                  (match hasCyclesUtil gates fuel l (v.set node true) (r.set node true) with
                    | UtilRes.outOfFuel => UtilRes.outOfFuel
                    | UtilRes.panicked m => UtilRes.panicked m
                    | UtilRes.returned true v2 r2 => UtilRes.returned true v2 r2
                    | UtilRes.returned false v2 r2 =>
                      match hasCyclesUtil gates fuel rr v2 r2 with
                      | UtilRes.outOfFuel => UtilRes.outOfFuel
                      | UtilRes.panicked m => UtilRes.panicked m
                      | UtilRes.returned true v3 r3 => UtilRes.returned true v3 r3
                      | UtilRes.returned false v3 r3 =>
                        UtilRes.returned false v3 (r3.set node false))
                    = UtilRes.returned b v' r'
                rw [hrec]
                cases b2 with
                | true => exact ⟨true, v2, r2, rfl⟩
                | false =>
                  obtain ⟨e1, e2, e3⟩ :=
                    hasCyclesUtil_mono gates fuel l (v.set node true) (r.set node true)
                      false v2 r2 hrec
                  obtain ⟨b3, v3, r3, hrec2⟩ := ih rr v2 r2 (by rw [e1, hv1])
                    (by rw [e2, hr1]) hrb (by omega)
                  show ∃ b v' r',
                    (match hasCyclesUtil gates fuel rr v2 r2 with
                      | UtilRes.outOfFuel => UtilRes.outOfFuel
                      | UtilRes.panicked m => UtilRes.panicked m
                      | UtilRes.returned true v3 r3 => UtilRes.returned true v3 r3
                      | UtilRes.returned false v3 r3 =>
                        UtilRes.returned false v3 (r3.set node false))
                      = UtilRes.returned b v' r'
                  rw [hrec2]
                  cases b3 with
                  | true => exact ⟨true, v3, r3, rfl⟩
                  | false => exact ⟨false, v3, r3.set node false, rfl⟩

theorem checkRefsFrom_of_topo (gs : List Gate) :
    ∀ i : Nat, topoFromB i gs = true → checkRefsFrom i gs = .ok () := by
  induction gs with
  | nil => intro i _; rfl
  | cons g rest ih =>
    intro i h
    simp only [topoFromB, Bool.and_eq_true] at h
    have hops : ∀ j, j ∈ g.operands → j < i := by
      intro j hj
      simpa using List.all_eq_true.mp h.1 j hj
    cases g with
    | Input => exact ih (i + 1) h.2
    | Constant v => exact ih (i + 1) h.2
    | Not x =>
      have hx := hops x (by simp [Gate.operands])
      simp only [checkRefsFrom]
      rw [if_neg (Nat.not_le.mpr hx)]
      exact ih (i + 1) h.2
    | And l r =>
      have hl := hops l (by simp [Gate.operands])
      have hr := hops r (by simp [Gate.operands])
      simp only [checkRefsFrom]
      rw [if_neg (Nat.not_le.mpr hl), if_neg (Nat.not_le.mpr hr)]
      exact ih (i + 1) h.2
    | Or l r =>
      have hl := hops l (by simp [Gate.operands])
      have hr := hops r (by simp [Gate.operands])
      simp only [checkRefsFrom]
      rw [if_neg (Nat.not_le.mpr hl), if_neg (Nat.not_le.mpr hr)]
      exact ih (i + 1) h.2
    | Xor l r =>
      have hl := hops l (by simp [Gate.operands])
      have hr := hops r (by simp [Gate.operands])
      simp only [checkRefsFrom]
      rw [if_neg (Nat.not_le.mpr hl), if_neg (Nat.not_le.mpr hr)]
      exact ih (i + 1) h.2

theorem checkRefsFrom_topo_of_ok (gs : List Gate) :
    ∀ i : Nat, checkRefsFrom i gs = .ok () → topoFromB i gs = true := by
  induction gs with
  | nil => intro i _; rfl
  | cons g rest ih =>
    intro i h
    cases g with
    | Input => simpa [topoFromB, Gate.operands] using ih (i + 1) h
    | Constant v => simpa [topoFromB, Gate.operands] using ih (i + 1) h
    | Not x =>
      simp only [checkRefsFrom] at h
      by_cases hx : x ≥ i
      · rw [if_pos hx] at h; exact Except.noConfusion h
      · rw [if_neg hx] at h
        have hx' := Nat.not_le.mp hx
        simpa [topoFromB, Gate.operands, hx'] using ih (i + 1) h
    | And l r =>
      simp only [checkRefsFrom] at h
      by_cases hl : l ≥ i
      · rw [if_pos hl] at h; exact Except.noConfusion h
      · rw [if_neg hl] at h
        by_cases hr : r ≥ i
        · rw [if_pos hr] at h; exact Except.noConfusion h
        · rw [if_neg hr] at h
          have hl' := Nat.not_le.mp hl
          have hr' := Nat.not_le.mp hr
          simpa [topoFromB, Gate.operands, hl', hr'] using ih (i + 1) h
    | Or l r =>
      simp only [checkRefsFrom] at h
      by_cases hl : l ≥ i
      · rw [if_pos hl] at h; exact Except.noConfusion h
      · rw [if_neg hl] at h
        by_cases hr : r ≥ i
        · rw [if_pos hr] at h; exact Except.noConfusion h
        · rw [if_neg hr] at h
          have hl' := Nat.not_le.mp hl
          have hr' := Nat.not_le.mp hr
          simpa [topoFromB, Gate.operands, hl', hr'] using ih (i + 1) h
    | Xor l r =>
      simp only [checkRefsFrom] at h
      by_cases hl : l ≥ i
      · rw [if_pos hl] at h; exact Except.noConfusion h
      · rw [if_neg hl] at h
        by_cases hr : r ≥ i
        · rw [if_pos hr] at h; exact Except.noConfusion h
        · rw [if_neg hr] at h
          have hl' := Nat.not_le.mp hl
          have hr' := Nat.not_le.mp hr
          simpa [topoFromB, Gate.operands, hl', hr'] using ih (i + 1) h

theorem checkRefsFrom_error_shape (gs : List Gate) :
    ∀ (i : Nat) (e : ValidateErr), checkRefsFrom i gs = .error e →
      ∃ a j, e = .futureRef a j := by
  induction gs with
  | nil => intro i e h; exact Except.noConfusion h
  | cons g rest ih =>
    intro i e h
    cases g with
    | Input => exact ih (i + 1) e h
    | Constant v => exact ih (i + 1) e h
    | Not x =>
      simp only [checkRefsFrom] at h
      by_cases hx : x ≥ i
      · rw [if_pos hx] at h
        exact ⟨i, x, (Except.error.inj h).symm⟩
      · rw [if_neg hx] at h
        exact ih (i + 1) e h
    | And l r =>
      simp only [checkRefsFrom] at h
      by_cases hl : l ≥ i
      · rw [if_pos hl] at h
        exact ⟨i, l, (Except.error.inj h).symm⟩
      · rw [if_neg hl] at h
        by_cases hr : r ≥ i
        · rw [if_pos hr] at h
          exact ⟨i, r, (Except.error.inj h).symm⟩
        · rw [if_neg hr] at h
          exact ih (i + 1) e h
    | Or l r =>
      simp only [checkRefsFrom] at h
      by_cases hl : l ≥ i
      · rw [if_pos hl] at h
        exact ⟨i, l, (Except.error.inj h).symm⟩
      · rw [if_neg hl] at h
        by_cases hr : r ≥ i
        · rw [if_pos hr] at h
          exact ⟨i, r, (Except.error.inj h).symm⟩
        · rw [if_neg hr] at h
          exact ih (i + 1) e h
    | Xor l r =>
      simp only [checkRefsFrom] at h
      by_cases hl : l ≥ i
      · rw [if_pos hl] at h
        exact ⟨i, l, (Except.error.inj h).symm⟩
      · rw [if_neg hl] at h
        by_cases hr : r ≥ i
        · rw [if_pos hr] at h
          exact ⟨i, r, (Except.error.inj h).symm⟩
        · rw [if_neg hr] at h
          exact ih (i + 1) e h

/-- When the operand scan hits a violation, the reported error names a
gate index and the operand index it references, with the reference not
strictly below the gate. -/
theorem checkRefsFrom_err (gates : List Gate) :
    ∀ (rem done : List Gate), gates = done ++ rem →
      topoFromB done.length rem = false →
      ∃ a j g, checkRefsFrom done.length rem = .error (.futureRef a j) ∧ a ≤ j ∧
        gates[a]? = some g ∧ j ∈ g.operands := by
  intro rem
  induction rem with
  | nil => intro done _ h; simp [topoFromB] at h
  | cons g rest ih =>
    intro done hdone htopo
    have hgi : gates[done.length]? = some g := by
      rw [hdone, List.getElem?_append_right (Nat.le_refl _)]
      simp
    by_cases hall : (g.operands.all (fun j => decide (j < done.length))) = true
    · have hrest : topoFromB (done.length + 1) rest = false := by
        simpa [topoFromB, hall] using htopo
      obtain ⟨a, j, g', h1, h2, h3, h4⟩ := ih (done ++ [g])
        (by rw [hdone, List.append_assoc]; rfl)
        (by simpa using hrest)
      have h1' : checkRefsFrom (done.length + 1) rest = .error (.futureRef a j) := by
        simpa using h1
      refine ⟨a, j, g', ?_, h2, h3, h4⟩
      cases g with
      | Input => exact h1'
      | Constant v => exact h1'
      | Not x =>
        have hx : x < done.length := by
          simpa using List.all_eq_true.mp hall x (by simp [Gate.operands])
        simp only [checkRefsFrom]
        rw [if_neg (Nat.not_le.mpr hx)]
        exact h1'
      | And l r =>
        have hl : l < done.length := by
          simpa using List.all_eq_true.mp hall l (by simp [Gate.operands])
        have hr : r < done.length := by
          simpa using List.all_eq_true.mp hall r (by simp [Gate.operands])
        simp only [checkRefsFrom]
        rw [if_neg (Nat.not_le.mpr hl), if_neg (Nat.not_le.mpr hr)]
        exact h1'
      | Or l r =>
        have hl : l < done.length := by
          simpa using List.all_eq_true.mp hall l (by simp [Gate.operands])
        have hr : r < done.length := by
          simpa using List.all_eq_true.mp hall r (by simp [Gate.operands])
        simp only [checkRefsFrom]
        rw [if_neg (Nat.not_le.mpr hl), if_neg (Nat.not_le.mpr hr)]
        exact h1'
      | Xor l r =>
        have hl : l < done.length := by
          simpa using List.all_eq_true.mp hall l (by simp [Gate.operands])
        have hr : r < done.length := by
          simpa using List.all_eq_true.mp hall r (by simp [Gate.operands])
        simp only [checkRefsFrom]
        rw [if_neg (Nat.not_le.mpr hl), if_neg (Nat.not_le.mpr hr)]
        exact h1'
    · cases g with
      | Input => simp [Gate.operands] at hall
      | Constant v => simp [Gate.operands] at hall
      | Not x =>
        have hx : done.length ≤ x := by
          by_contra hc
          exact hall (by simp [Gate.operands, Nat.not_le.mp hc])
        refine ⟨done.length, x, .Not x, ?_, hx, hgi, by simp [Gate.operands]⟩
        simp only [checkRefsFrom]
        rw [if_pos hx]
      | And l r =>
        by_cases hl : l < done.length
        · have hr : done.length ≤ r := by
            by_contra hc
            exact hall (by simp [Gate.operands, hl, Nat.not_le.mp hc])
          refine ⟨done.length, r, .And l r, ?_, hr, hgi, by simp [Gate.operands]⟩
          simp only [checkRefsFrom]
          rw [if_neg (Nat.not_le.mpr hl), if_pos hr]
        · have hl' : done.length ≤ l := Nat.not_lt.mp hl
          refine ⟨done.length, l, .And l r, ?_, hl', hgi, by simp [Gate.operands]⟩
          simp only [checkRefsFrom]
          rw [if_pos hl']
      | Or l r =>
        by_cases hl : l < done.length
        · have hr : done.length ≤ r := by
            by_contra hc
            exact hall (by simp [Gate.operands, hl, Nat.not_le.mp hc])
          refine ⟨done.length, r, .Or l r, ?_, hr, hgi, by simp [Gate.operands]⟩
          simp only [checkRefsFrom]
          rw [if_neg (Nat.not_le.mpr hl), if_pos hr]
        · have hl' : done.length ≤ l := Nat.not_lt.mp hl
          refine ⟨done.length, l, .Or l r, ?_, hl', hgi, by simp [Gate.operands]⟩
          simp only [checkRefsFrom]
          rw [if_pos hl']
      | Xor l r =>
        by_cases hl : l < done.length
        · have hr : done.length ≤ r := by
            by_contra hc
            exact hall (by simp [Gate.operands, hl, Nat.not_le.mp hc])
          refine ⟨done.length, r, .Xor l r, ?_, hr, hgi, by simp [Gate.operands]⟩
          simp only [checkRefsFrom]
          rw [if_neg (Nat.not_le.mpr hl), if_pos hr]
        · have hl' : done.length ≤ l := Nat.not_lt.mp hl
          refine ⟨done.length, l, .Xor l r, ?_, hl', hgi, by simp [Gate.operands]⟩
          simp only [checkRefsFrom]
          rw [if_pos hl']

/-- C3 counterexample: on the circuit with a single `Input` gate and the
out-of-bounds output index 1, the only violation is the invalid output
index, yet `validate` does not return that error: the cycle-detection DFS
it runs first panics indexing `rec_stack[1]`.  This refutes the claim
that `validate` returns the first violation as an error and never
panics. -/
theorem validate_panics_on_oob_output :
    Circuit.validate ⟨[Gate.Input], 1⟩ = .error (.indexPanic 1) ∧
    ¬ (1 : Nat) < ([Gate.Input] : List Gate).length ∧
    Circuit.validate ⟨[Gate.Input], 1⟩ ≠ .error (.outputOutOfBounds 1) := by
  decide

/-- C3 (amended): `validate` returns `Ok` exactly when the three checks
pass — the DFS from the output finds no cycle, every operand index is
strictly below its gate's index, and the output index is in bounds.  When
the output index and every stored operand index are within the gate
count, `validate` never panics (and the DFS fuel never runs out); and
whenever the DFS found no cycle but the operand scan fails, the error
names the offending gate and the operand index it references.  (An
out-of-bounds output or operand index can instead make the DFS panic, as
the counterexample shows.) -/
theorem validate_ok_iff_checks (c : Circuit) :
    (c.validate = .ok () ↔
      (c.cycleFound = false ∧ topoOkB c.gates = true ∧ c.output < c.gates.length)) ∧
    (c.output < c.gates.length → operandsInBounds c.gates = true →
      (∀ n, c.validate ≠ .error (.indexPanic n)) ∧
        c.validate ≠ .error .fuelExhausted) ∧
    (c.cycleFound = false → topoOkB c.gates = false →
      ∃ i j g, c.validate = .error (.futureRef i j) ∧ i ≤ j ∧
        c.gates[i]? = some g ∧ j ∈ g.operands) := by
  refine ⟨?_, ?_, ?_⟩
  · cases hres : c.hasCyclesRes with
    | outOfFuel =>
      simp only [Circuit.validate, Circuit.cycleFound, hres]
      simp
    | panicked n =>
      simp only [Circuit.validate, Circuit.cycleFound, hres]
      simp
    | returned b v r =>
      cases b with
      | true =>
        simp only [Circuit.validate, Circuit.cycleFound, hres]
        simp
      | false =>
        simp only [Circuit.validate, Circuit.cycleFound, hres]
        cases hchk : checkRefsFrom 0 c.gates with
        | error e =>
          simp only [hchk]
          constructor
          · intro hcon; exact absurd hcon (by simp)
          · rintro ⟨-, htopo, -⟩
            have hok := checkRefsFrom_of_topo c.gates 0 (by simpa [topoOkB] using htopo)
            rw [hok] at hchk
            exact Except.noConfusion hchk
        | ok u =>
          cases u
          have htopo := checkRefsFrom_topo_of_ok c.gates 0 hchk
          simp only [hchk]
          by_cases ho : c.output ≥ c.gates.length
          · rw [if_pos ho]
            constructor
            · intro hcon; exact absurd hcon (by simp)
            · rintro ⟨-, -, hlt⟩
              exact absurd hlt (Nat.not_lt.mpr ho)
          · rw [if_neg ho]
            exact ⟨fun _ => ⟨by trivial, htopo, Nat.not_le.mp ho⟩, fun _ => rfl⟩
  · intro hout hb
    have hlen : (List.replicate c.gates.length false).length = c.gates.length := by simp
    obtain ⟨b, v', r', hres0⟩ := hasCyclesUtil_total hb (c.gates.length + 1) c.output
      (List.replicate c.gates.length false) (List.replicate c.gates.length false)
      hlen hlen hout (by rw [countFalse_replicate_false]; omega)
    have hres : c.hasCyclesRes = .returned b v' r' := hres0
    have hform : c.validate = .error .cycle ∨
        (∃ a j, c.validate = .error (.futureRef a j)) ∨
        c.validate = .error (.outputOutOfBounds c.output) ∨ c.validate = .ok () := by
      simp only [Circuit.validate, hres]
      cases b with
      | true => exact Or.inl rfl
      | false =>
        cases hchk : checkRefsFrom 0 c.gates with
        | error e =>
          obtain ⟨a, j, he⟩ := checkRefsFrom_error_shape c.gates 0 e hchk
          subst he
          exact Or.inr (Or.inl ⟨a, j, rfl⟩)
        | ok u =>
          cases u
          by_cases ho : c.output ≥ c.gates.length
          · exact Or.inr (Or.inr (Or.inl (by rw [if_pos ho])))
          · exact Or.inr (Or.inr (Or.inr (by rw [if_neg ho])))
    constructor
    · intro n hcon
      rcases hform with h | ⟨a, j, h⟩ | h | h <;> rw [h] at hcon <;> simp at hcon
    · intro hcon
      rcases hform with h | ⟨a, j, h⟩ | h | h <;> rw [h] at hcon <;> simp at hcon
  · intro hcf htopo
    cases hres : c.hasCyclesRes with
    | outOfFuel =>
      simp only [Circuit.cycleFound, hres] at hcf
      exact absurd hcf (by simp)
    | panicked n =>
      simp only [Circuit.cycleFound, hres] at hcf
      exact absurd hcf (by simp)
    | returned b v r =>
      simp only [Circuit.cycleFound, hres] at hcf
      subst hcf
      obtain ⟨a, j, g, h1, h2, h3, h4⟩ := checkRefsFrom_err c.gates c.gates [] rfl
        (by simpa [topoOkB] using htopo)
      have h1' : checkRefsFrom 0 c.gates = .error (.futureRef a j) := by
        simpa using h1
      refine ⟨a, j, g, ?_, h2, h3, h4⟩
      simp only [Circuit.validate, hres, h1']

/-- Witness for the amended C3: a valid one-input circuit validates `Ok`,
and a forward-referencing (but in-bounds) circuit does not produce the
panic value. -/
theorem validate_ok_iff_checks_witness :
    Circuit.validate ⟨[Gate.Input], 0⟩ = .ok () ∧
    Circuit.validate ⟨[Gate.Input, Gate.And 0 2, Gate.Input], 1⟩ ≠
      .error (.indexPanic 0) :=
  ⟨(validate_ok_iff_checks ⟨[Gate.Input], 0⟩).1.mpr ⟨by decide, by decide, by decide⟩,
   ((validate_ok_iff_checks ⟨[Gate.Input, Gate.And 0 2, Gate.Input], 1⟩).2.1
     (by decide) (by decide)).1 0⟩

/-- Witness for C10 at a concrete one-constant circuit and trivial key. -/
theorem try_evaluate_never_invalid_server_key_witness :
    try_evaluate (σ := Bool) (κ := Unit) (fun _ => ⟨Bool.and, Bool.or, Bool.xor, Bool.not⟩)
      ⟨⟨[Gate.Constant true], 0⟩, [], false, true⟩ ⟨()⟩ ≠
      .error (.invalidServerKey "bad key") :=
  (try_evaluate_never_invalid_server_key (fun _ => ⟨Bool.and, Bool.or, Bool.xor, Bool.not⟩)
    ⟨⟨[Gate.Constant true], 0⟩, [], false, true⟩ ⟨()⟩).2.2 "bad key"

end Encircuit
